import Mathlib

/-!
Documentation checkers of smolotchi.

A shallow embedding of the two build-time checkers of `docs-site/scripts`:

* `check_mdx_safety.mjs`: the markup-safety scan of the generated `_meta` documents;
* `validate-sidebars.mjs`: the check of the sidebar against the ids of the documents.

A JavaScript string is modelled as the list of its characters. The files are read as UTF-8,
so no lone surrogate occurs, and every pattern of the scripts concerns ASCII characters only,
for which code units and code points coincide.
-/

namespace Smolotchi

/-- A JavaScript string, as the list of its characters. -/
abbrev Str := List Char

/-! ## String primitives of the host language -/

/-- The characters that `String.prototype.trim` removes: the ECMAScript `WhiteSpace` and
`LineTerminator` code points. -/
def isJsWhiteSpace (c : Char) : Bool :=
  let n := c.toNat
  n == 0x09 || n == 0x0A || n == 0x0B || n == 0x0C || n == 0x0D || n == 0x20 ||
  n == 0xA0 || n == 0x1680 || (0x2000 ≤ n && n ≤ 0x200A) ||
  n == 0x2028 || n == 0x2029 || n == 0x202F || n == 0x205F || n == 0x3000 || n == 0xFEFF

/-- `s.trimStart()`. -/
def trimStart (s : Str) : Str := s.dropWhile isJsWhiteSpace

/-- `s.trimEnd()`. -/
def trimEnd (s : Str) : Str := (s.reverse.dropWhile isJsWhiteSpace).reverse

/-- `s.trim()`. -/
def trim (s : Str) : Str := trimEnd (trimStart s)

/-- `s.startsWith(p)`. -/
def startsWith (s p : Str) : Bool := p.isPrefixOf s

/-- `s.endsWith(p)`. -/
def endsWith (s p : Str) : Bool := p.isSuffixOf s

/-- `s.includes(sub)`: `sub` occurs in `s` at some position. -/
def includes : Str → Str → Bool
  | [], sub => sub.isEmpty
  | c :: t, sub => startsWith (c :: t) sub || includes t sub

/-- `content.split(/\r?\n/)`: the separators are `\r\n` and `\n`, matched from the left; the
result always has at least one element. -/
def splitLines : Str → List Str
  | [] => [[]]
  | '\r' :: '\n' :: t => [] :: splitLines t
  | '\n' :: t => [] :: splitLines t
  | c :: t =>
    match splitLines t with
    | [] => [[c]]
    | l :: ls => (c :: l) :: ls

/-! ## `check_mdx_safety.mjs` -/

/-- The class `[A-Za-z]`. -/
def isAsciiLetter (c : Char) : Bool :=
  (65 ≤ c.toNat && c.toNat ≤ 90) || (97 ≤ c.toNat && c.toNat ≤ 122)

/-- `MDX_JSX_RE.test(line)` for `MDX_JSX_RE = /<(?=[A-Za-z])/`: the pattern has no `g` flag, so
the test keeps no state; it succeeds at the first `<` whose next character is a letter. -/
def MDX_JSX_RE_test : Str → Bool
  | [] => false
  | c :: t =>
    (c == '<' && (match t with
      | [] => false
      | d :: _ => isAsciiLetter d)) || MDX_JSX_RE_test t

/-- The fence marker. -/
def FENCE : Str := "```".toList

/-- The opening brace. -/
def LBRACE : Char := Char.ofNat 123

/-- The closing brace. -/
def RBRACE : Char := Char.ofNat 125

/-- The two hazards, one for each message of the scan. -/
inductive Hazard where
  /-- `contains raw '<' that looks like JSX` -/
  | tag
  /-- `contains raw '{' or '}'` -/
  | brace
  deriving DecidableEq, Repr

/-- One entry of `failures`: the file name, the line number `index + 1`, and which of the two
messages it carries. -/
structure Violation where
  file : Str
  line : Nat
  hazard : Hazard
  deriving DecidableEq, Repr

/-- The condition `line.trim().startsWith(FENCE)` of the toggle. -/
def isFenceLine (line : Str) : Bool := startsWith (trim line) FENCE

/-- The condition of the first `if` that pushes. -/
def tagHazard (line : Str) : Bool := MDX_JSX_RE_test line

/-- The condition of the second `if` that pushes. -/
def braceHazard (line : Str) : Bool := includes line [LBRACE] || includes line [RBRACE]

/-- The inner `for` loop from `index` on, over the remaining lines, with the current values
of `inFence` and `failures`. -/
def scanFrom (name : Str) : List Str → Nat → Bool → List Violation → List Violation
  | [], _, _, failures => failures
  | line :: rest, index, inFence, failures =>
    if isFenceLine line then
      scanFrom name rest (index + 1) (!inFence) failures
    else if inFence then
      scanFrom name rest (index + 1) inFence failures
    else
      let failures1 :=
        if tagHazard line then failures ++ [⟨name, index + 1, Hazard.tag⟩] else failures
      let failures2 :=
        if braceHazard line then failures1 ++ [⟨name, index + 1, Hazard.brace⟩] else failures1
      scanFrom name rest (index + 1) inFence failures2

/-- The body of the outer loop for one file: `failures` after the file has been scanned. -/
def scanFileInto (name content : Str) (failures : List Violation) : List Violation :=
  scanFrom name (splitLines content) 0 false failures

/-- The violations of one file, scanned with an empty `failures`. -/
def scanFile (name content : Str) : List Violation :=
  scanFileInto name content []

/-- Whether a line contains the given hazard. -/
def hasHazard : Hazard → Str → Bool
  | Hazard.tag, line => tagHazard line
  | Hazard.brace, line => braceHazard line

/-- What one scanned line pushes: the tag failure first, then the brace failure. -/
def lineReport (name : Str) (n : Nat) (line : Str) : List Violation :=
  (if tagHazard line then [⟨name, n, Hazard.tag⟩] else []) ++
    (if braceHazard line then [⟨name, n, Hazard.brace⟩] else [])

/-- The number of fence-marker lines among the given lines. -/
def fenceCount (lines : List Str) : Nat := lines.countP isFenceLine

/-- Line `k` (1-based) of a list of lines. -/
def lineAt (lines : List Str) (k : Nat) : Option Str :=
  if k = 0 then none else lines[k - 1]?

/-- Line `k` is scanned outside a fence: it is no fence marker and an even number of fence
markers precede it. -/
@[reducible] def scannedOutside (lines : List Str) (k : Nat) (line : Str) : Prop :=
  lineAt lines k = some line ∧ isFenceLine line = false ∧
    fenceCount (lines.take (k - 1)) % 2 = 0

/-! ## `validate-sidebars.mjs`: the sidebar -/

/-- The values a sidebar configuration is made of. -/
inductive JsValue where
  | undefined
  | null
  | bool (b : Bool)
  | num (n : Int)
  | str (s : Str)
  | arr (elems : List JsValue)
  | obj (props : List (Str × JsValue))

/-- Reading the property `key` of an object with the given properties: `undefined` when the
object has no such property. -/
def getProp : List (Str × JsValue) → Str → JsValue
  | [], _ => JsValue.undefined
  | (k, v) :: rest, key => if k = key then v else getProp rest key

/-- The effect of `if (item.type === "doc" && typeof item.id === "string")` on `collected`,
for an object with the given properties. -/
def pushDocId (props : List (Str × JsValue)) (collected : List Str) : List Str :=
  match getProp props "type".toList, getProp props "id".toList with
  | JsValue.str t, JsValue.str id =>
    if t = "doc".toList then collected ++ [id] else collected
  | _, _ => collected

mutual
/-- The body of the loop of `collectSidebarDocIds` for one `item`. A string is pushed. The
values `undefined`, `null`, booleans and numbers fail the test for an object and are skipped.
An array is an object without the properties `type`, `id` and `items`. -/
def collectItem : JsValue → List Str → List Str
  | JsValue.str s, collected => collected ++ [s]
  | JsValue.obj props, collected => collectItemsOf props (pushDocId props collected)
  | _, collected => collected
/-- The effect of `if (Array.isArray(item.items)) collectSidebarDocIds(item.items, collected)`
for an object with the given properties: the lookup of `items` and the recursive call. -/
def collectItemsOf : List (Str × JsValue) → List Str → List Str
  | [], collected => collected
  | (k, v) :: rest, collected =>
    if k = "items".toList then
      match v with
      | JsValue.arr elems => collectSidebarDocIds elems collected
      | _ => collected
    else collectItemsOf rest collected
/-- The function `collectSidebarDocIds(items, collected)`. -/
def collectSidebarDocIds : List JsValue → List Str → List Str
  | [], collected => collected
  | item :: rest, collected => collectSidebarDocIds rest (collectItem item collected)
end

/-- What the script writes and how it ends. -/
structure Outcome where
  /-- the texts written by `console.error`, one for each call -/
  stderr : List Str
  /-- the texts written by `console.log`, one for each call -/
  stdout : List Str
  /-- the exit status of the process -/
  exitCode : Nat
  deriving DecidableEq, Repr

/-- The list `missing`: `sidebarDocIds.filter((id) => !docIds.has(id))`. The set `docIds` is
given by the list of its elements. -/
def missingIds (sidebarDocIds docIds : List Str) : List Str :=
  sidebarDocIds.filter (fun id => !docIds.contains id)

/-- The top level of `validate-sidebars.mjs` from `sidebarDocIds` on. The argument
`docsSidebar` is `sidebars.docsSidebar`, with `none` for `undefined` or `null`, which
`?? []` replaces by the empty array. -/
def validateSidebars (docsSidebar : Option (List JsValue)) (docIds : List Str) : Outcome :=
  let sidebarDocIds := collectSidebarDocIds (docsSidebar.getD []) []
  let missing := missingIds sidebarDocIds docIds
  if missing.length > 0 then
    { stderr := "Sidebar references missing doc ids:".toList ::
        missing.map (fun id => "- ".toList ++ id),
      stdout := [],
      exitCode := 1 }
  else
    { stderr := [],
      stdout := ["Sidebar validation passed.".toList],
      exitCode := 0 }

/-- A category node of `sidebars.js`. -/
def category (label : String) (items : List String) : JsValue :=
  JsValue.obj [("type".toList, JsValue.str "category".toList),
    ("label".toList, JsValue.str label.toList),
    ("items".toList, JsValue.arr (items.map (fun s => JsValue.str s.toList)))]

/-- The array `sidebars.docsSidebar` of `sidebars.js`. -/
def docsSidebar : List JsValue :=
  [JsValue.str "index".toList,
   category "Getting Started" ["getting-started/installation", "getting-started/quickstart"],
   category "User Guide" ["user-guide/web-ui", "user-guide/stage-gates"],
   category "Architecture" ["architecture/overview", "architecture/pipelines"],
   category "Reference" ["reference/http-api", "reference/cli", "reference/configuration",
     "reference/actions", "reference/artifacts-and-reports"],
   category "Deployment" ["deployment/systemd"],
   category "Developer Guide" ["dev/testing", "dev/docs-generation"],
   category "Troubleshooting" ["troubleshooting/common-issues"],
   JsValue.str "glossary".toList,
   category "Meta" ["_meta/repo-map", "_meta/symbol-index", "_meta/code-index"]]

/-- The ids of `sidebars.js` in the order in which the file lists them. -/
def docsSidebarIds : List Str :=
  ["index", "getting-started/installation", "getting-started/quickstart",
   "user-guide/web-ui", "user-guide/stage-gates", "architecture/overview",
   "architecture/pipelines", "reference/http-api", "reference/cli",
   "reference/configuration", "reference/actions", "reference/artifacts-and-reports",
   "deployment/systemd", "dev/testing", "dev/docs-generation",
   "troubleshooting/common-issues", "glossary", "_meta/repo-map", "_meta/symbol-index",
   "_meta/code-index"].map String.toList

/-! ### The collection in the words of the specification -/

/-- The id an object entry contributes by itself: its `id` when its `type` is `"doc"` and the
`id` is a string. -/
def docIdOf (props : List (Str × JsValue)) : List Str :=
  match getProp props "type".toList, getProp props "id".toList with
  | JsValue.str t, JsValue.str id => if t = "doc".toList then [id] else []
  | _, _ => []

mutual
/-- The contribution of one entry: a string contributes itself, an object its doc id followed
by the contributions of its `items`, anything else nothing. -/
def contribution : JsValue → List Str
  | JsValue.str s => [s]
  | JsValue.obj props => docIdOf props ++ contributionOfItems props
  | _ => []
/-- The contributions of the `items` of an object, when `items` is an array. -/
def contributionOfItems : List (Str × JsValue) → List Str
  | [] => []
  | (k, v) :: rest =>
    if k = "items".toList then
      match v with
      | JsValue.arr elems => contributions elems
      | _ => []
    else contributionOfItems rest
/-- The contributions of a sequence of entries, concatenated in order. -/
def contributions : List JsValue → List Str
  | [] => []
  | item :: rest => contribution item ++ contributions rest
end

/-- The id `s` is nested `n` levels deep inside category nodes of the sequence: at depth 0 an
entry references it, as the bare string `s` or as an object of type `"doc"` whose `id` is `s`;
at depth `n + 1` some entry is an object of type `"category"` whose `items` is an array in
which `s` is nested `n` levels deep. -/
def NestedIn (s : Str) : Nat → List JsValue → Prop
  | 0, items => JsValue.str s ∈ items ∨
      ∃ props, JsValue.obj props ∈ items ∧
        getProp props "type".toList = JsValue.str "doc".toList ∧
        getProp props "id".toList = JsValue.str s
  | n + 1, items => ∃ props elems, JsValue.obj props ∈ items ∧
      getProp props "type".toList = JsValue.str "category".toList ∧
      getProp props "items".toList = JsValue.arr elems ∧ NestedIn s n elems

/-- The category node with the single entry `inner`. -/
def wrapCategory (inner : JsValue) : JsValue :=
  JsValue.obj [("type".toList, JsValue.str "category".toList),
    ("items".toList, JsValue.arr [inner])]

/-! ## `validate-sidebars.mjs`: the id of a document -/

/-- The backslash. -/
def BACKSLASH : Char := Char.ofNat 92

/-- The position that a relative index of `slice` denotes in a string of length `len`:
a negative index counts from the end, and the result is clamped to the string. -/
def relIndex (len : Nat) (i : Int) : Nat :=
  if i < 0 then (len + i).toNat else min i.toNat len

/-- `s.slice(a, b)`. -/
def slice (s : Str) (a b : Int) : Str :=
  (s.take (relIndex s.length b)).drop (relIndex s.length a)

/-- The search of `indexOf` in the rest of a string, `pos` being the position of the rest. -/
def indexOfAux (sub : Str) : Str → Nat → Option Nat
  | [], pos => if sub.isEmpty then some pos else none
  | c :: t, pos => if startsWith (c :: t) sub then some pos else indexOfAux sub t (pos + 1)

/-- `s.indexOf(sub, start)`, with `none` for the result `-1`. -/
def indexOf (s sub : Str) (start : Nat) : Option Nat :=
  indexOfAux sub (s.drop start) (min start s.length)

/-- `s.split(sep)` for a separator of one character. -/
def split (sep : Char) : Str → List Str
  | [] => [[]]
  | c :: t =>
    if c = sep then [] :: split sep t
    else
      match split sep t with
      | [] => [[c]]
      | l :: ls => (c :: l) :: ls

/-- The class of the two quote characters, the single and the double quote. -/
def isQuote (c : Char) : Bool := c == Char.ofNat 39 || c == Char.ofNat 34

/-- `s.replace(/^[QUOTES]|[QUOTES]$/g, "")`: the first alternative can only match the first
character, the second only the last one, and the two matches do not overlap. -/
def stripQuotes (s : Str) : Str :=
  let s1 :=
    match s with
    | [] => []
    | c :: t => if isQuote c then t else c :: t
  match s1.reverse with
  | [] => []
  | c :: t => if isQuote c then t.reverse else s1

/-- `relativePath.replace(/\\/g, "/")`. -/
def normalizeSeparators (p : Str) : Str :=
  p.map (fun c => if c = BACKSLASH then '/' else c)

/-- The variables of the loop of `path.posix.extname`; `none` stands for `-1`. -/
structure ExtnameState where
  startDot : Option Nat
  startPart : Nat
  endPos : Option Nat
  matchedSlash : Bool
  preDotState : Int

/-- The loop of `path.posix.extname` of Node.js, which runs from the last character to the
first. The argument is the part of the path not yet visited, reversed, so that its head is
the character at index `i`. -/
def extnameLoop : Str → ExtnameState → ExtnameState
  | [], st => st
  | code :: before, st =>
    let i := before.length
    if code = '/' then
      if !st.matchedSlash then { st with startPart := i + 1 }
      else extnameLoop before st
    else
      let st1 :=
        if st.endPos = none then { st with matchedSlash := false, endPos := some (i + 1) }
        else st
      let st2 :=
        if code = '.' then
          if st1.startDot = none then { st1 with startDot := some i }
          else if st1.preDotState ≠ 1 then { st1 with preDotState := 1 }
          else st1
        else if st1.startDot ≠ none then { st1 with preDotState := -1 }
        else st1
      extnameLoop before st2

/-- The function `path.extname` of Node.js on a POSIX host: the extension of the last segment
of the path, from its last dot on, and the empty string when the segment has no dot, or no
dot other than a first character, or is `..`. -/
def posixExtname (path : Str) : Str :=
  let st := extnameLoop path.reverse ⟨none, 0, none, true, 0⟩
  match st.startDot, st.endPos with
  | some startDot, some endPos =>
    if st.preDotState = 0 ||
        (st.preDotState = 1 && startDot = endPos - 1 && startDot = st.startPart + 1) then []
    else slice path startDot endPos
  | _, _ => []

/-- The constant `defaultId` of `readDocId`. The argument `relative` is the result of
`path.relative(docsRoot, filePath)`, and `extname` is `path.extname` of the host. -/
def defaultId (extname : Str → Str) (relative : Str) : Str :=
  let relativePath := normalizeSeparators relative
  let ext := extname relativePath
  slice relativePath 0 (-(ext.length : Int))

/-- The test `line.trim().startsWith("id:")` of `find`. -/
def isIdLine (line : Str) : Bool := startsWith (trim line) "id:".toList

/-- The function `readDocId`, for a file with the given content. An empty string and
`undefined` are the values that fail the tests `if (idLine)` and `if (idValue)`. -/
def readDocId (extname : Str → Str) (relative : Str) (content : Str) : Str :=
  if startsWith content "---".toList then
    match indexOf content "\n---".toList 3 with
    | some endPos =>
      let frontmatter := split '\n' (slice content 3 endPos)
      match frontmatter.find? isIdLine with
      | some idLine =>
        if idLine ≠ [] then
          match (split ':' idLine)[1]? with
          | some idValue =>
            if idValue ≠ [] then stripQuotes (trim idValue)
            else defaultId extname relative
          | none => defaultId extname relative
        else defaultId extname relative
      | none => defaultId extname relative
    | none => defaultId extname relative
  else defaultId extname relative

/-- The closing delimiter of the front matter is at position `e`: the first position from 3
on at which the text `\n---` occurs. -/
@[reducible] def closesAt (content : Str) (e : Nat) : Prop :=
  3 ≤ e ∧ startsWith (content.drop e) "\n---".toList = true ∧
    ∀ i, 3 ≤ i → i < e → startsWith (content.drop i) "\n---".toList = false

/-- The content has no closing delimiter: the text `\n---` occurs at no position from 3 on. -/
@[reducible] def noClosing (content : Str) : Prop :=
  ∀ i, 3 ≤ i → startsWith (content.drop i) "\n---".toList = false

/-- `lines.join("\n")`. -/
def joinLines : List Str → Str
  | [] => []
  | [l] => l
  | l :: l2 :: ls => l ++ '\n' :: joinLines (l2 :: ls)

/-! ## `check_mdx_safety.mjs`: the files and the verdict -/

/-- The decimal numeral of a line number or a count, as a template literal renders it. -/
def toDecimal (n : Nat) : Str := Nat.toDigits 10 n

/-- The text of a failure, as the template literals of the two `push` calls build it. -/
def message (v : Violation) : Str :=
  v.file ++ ":".toList ++ toDecimal v.line ++
    match v.hazard with
    | Hazard.tag => " contains raw \x27<\x27 that looks like JSX".toList
    | Hazard.brace => " contains raw \x27\x7b\x27 or \x27\x7d\x27".toList

/-- The filter of `files`: `name.endsWith(".md")`. -/
def isMetaDoc (name : Str) : Bool := endsWith name ".md".toList

/-- What the script asks of its host about the directory `META_DIR`. A URL is given by its
text. -/
structure MetaHost where
  /-- `readdir(META_DIR)`: the names of the entries of the directory, in the order of the
  call -/
  readdir : List Str
  /-- `new URL(name, META_DIR)`: the URL that the name denotes relative to the directory, and
  `none` when the constructor throws -/
  newURL : Str → Option Str
  /-- `readFile(fileUrl, "utf8")`: the content of the file that the URL denotes, and `none`
  when the call throws -/
  readFile : Str → Option Str

/-- Lines 10 and 11 of the script: the content read for a name, through the URL that
`new URL(name, META_DIR)` makes of it; `none` when one of the two calls throws. -/
def readContent (host : MetaHost) (name : Str) : Option Str :=
  match host.newURL name with
  | none => none
  | some fileUrl => host.readFile fileUrl

/-- The outer `for` loop over the names of `files`, with the current value of `failures`;
`none` when a call throws, which ends the script. The variable `inFence` is declared inside
the loop, so every file starts outside a fence. -/
def scanFiles (host : MetaHost) : List Str → List Violation → Option (List Violation)
  | [], failures => some failures
  | name :: rest, failures =>
    match readContent host name with
    | none => none
    | some content => scanFiles host rest (scanFileInto name content failures)

/-- The constant `files`: the names of the directory, in the order of `readdir`, that end in
`.md`. -/
def metaFiles (host : MetaHost) : List Str :=
  host.readdir.filter isMetaDoc

/-- The array `failures` when the outer loop has ended. -/
def allFailures (host : MetaHost) : Option (List Violation) :=
  scanFiles host (metaFiles host) []

/-- The script `check_mdx_safety.mjs`: on failure one call of `console.error` with the
heading and the failures joined by newlines, and status 1; otherwise the line of success with
`files.length`. The result is `none` when a call of the loop throws: the script then ends
with that error, uncaught, and has written nothing. -/
def checkMdxSafety (host : MetaHost) : Option Outcome :=
  match scanFiles host (metaFiles host) [] with
  | none => none
  | some failures =>
    some
      (if failures.length ≠ 0 then
        { stderr := ["MDX safety check failed:\n".toList ++ joinLines (failures.map message)],
          stdout := [],
          exitCode := 1 }
      else
        { stderr := [],
          stdout := ["MDX safety check passed for ".toList ++
            toDecimal (metaFiles host).length ++ " _meta docs.".toList],
          exitCode := 0 })

/-- A host given by tables: the names of the directory, the URL of each name, and the content
of the file that each URL denotes. A URL outside the table denotes no file. -/
def hostOfTables (names : List Str) (urlOf contentAt : List (Str × Str)) : MetaHost :=
  { readdir := names,
    newURL := fun name => urlOf.lookup name,
    readFile := fun fileUrl => contentAt.lookup fileUrl }

/-- The URL of the directory in the examples: the script lies in `/site/scripts`. -/
def META_URL : Str := "file:///site/docs/_meta/".toList

/-- The directory with the files `A.md`, of content `ok`, and `%41.md`, of content `<div>`.
The URL of the name `%41.md` keeps the text `%41`, which `readFile` decodes to `A`, so that
it denotes the file `A.md`; the URL of the file `%41.md` itself has `%2541`. -/
def percentDir : MetaHost :=
  hostOfTables ["%41.md".toList, "A.md".toList]
    [("%41.md".toList, META_URL ++ "%41.md".toList), ("A.md".toList, META_URL ++ "A.md".toList)]
    [(META_URL ++ "A.md".toList, "ok".toList), (META_URL ++ "%41.md".toList, "ok".toList),
      (META_URL ++ "%2541.md".toList, "<div>".toList)]

/-- The directory with the files `a`, of content `ok`, and `a#b.md`, of content `<div>`. In
the URL of the name `a#b.md` the text from `#` on is the fragment, so that it denotes the
file `a`; the URL of the file `a#b.md` itself has `%23`. -/
def hashDir : MetaHost :=
  hostOfTables ["a".toList, "a#b.md".toList]
    [("a".toList, META_URL ++ "a".toList), ("a#b.md".toList, META_URL ++ "a#b.md".toList)]
    [(META_URL ++ "a".toList, "ok".toList), (META_URL ++ "a#b.md".toList, "ok".toList),
      (META_URL ++ "a%23b.md".toList, "<div>".toList)]

/-- The directory of `hashDir` with the two contents exchanged: the file `a` has the content
`<div>` and the file `a#b.md` the content `ok`. -/
def hashDirSwapped : MetaHost :=
  hostOfTables ["a".toList, "a#b.md".toList]
    [("a".toList, META_URL ++ "a".toList), ("a#b.md".toList, META_URL ++ "a#b.md".toList)]
    [(META_URL ++ "a".toList, "<div>".toList), (META_URL ++ "a#b.md".toList, "<div>".toList),
      (META_URL ++ "a%23b.md".toList, "ok".toList)]

/-- The directory with the single file `a#b.md`, of content `ok`: the URL of its name denotes
a file `a`, which does not exist, and `readFile` throws. -/
def hashOnlyDir : MetaHost :=
  hostOfTables ["a#b.md".toList]
    [("a#b.md".toList, META_URL ++ "a#b.md".toList)]
    [(META_URL ++ "a%23b.md".toList, "ok".toList)]

/-- A directory whose names are their own URL path, with the given files: the host for names
that `new URL` leaves as they are. -/
def plainDir (dir : List (Str × Str)) : MetaHost :=
  hostOfTables (dir.map Prod.fst) (dir.map (fun entry => (entry.1, META_URL ++ entry.1)))
    (dir.map (fun entry => (META_URL ++ entry.1, entry.2)))

/-- The lines of a stream: every call ends its text with a newline, and a text may itself
contain newlines. -/
def outputLines (texts : List Str) : List Str := texts.flatMap (split '\n')

/-- The content with every `\n` replaced by `\r\n`. -/
def toCrlf (content : Str) : Str :=
  content.flatMap (fun c => if c = '\n' then ['\r', '\n'] else [c])

/-! ## `validate-sidebars.mjs`: the ids of the documents -/

/-- An entry of a directory, as `readdirSync` with `withFileTypes` reports it: a directory
with its own entries, or anything else, with the content that `readFileSync` returns. -/
inductive FsEntry where
  | file (name : Str) (content : Str)
  | dir (name : Str) (entries : List FsEntry)

/-- The constant `DOC_EXTENSIONS`. -/
def DOC_EXTENSIONS : List Str := [".md".toList, ".mdx".toList]

/-- The path of the entry `name` of the directory `current`, relative to `docsRoot`, on a
POSIX host: what `path.relative(docsRoot, path.join(current, name))` is when `current` is the
directory at the relative path `current`, the empty path standing for `docsRoot` itself. -/
def joinPath (current name : Str) : Str :=
  if current = [] then name else current ++ '/' :: name

/-- `ids.add(id)` on a set given by the list of its elements in insertion order. -/
def setAdd (ids : List Str) (id : Str) : List Str :=
  if ids.contains id then ids else ids ++ [id]

/-- The `for` loop of `collectDocIds` over the entries of the directory `current`, with the
current values of `stack` and `ids`. The top of the stack is the head of the list. A
directory is given on the stack by its relative path and its entries. -/
def processEntries (extname : Str → Str) (current : Str) :
    List FsEntry → List (Str × List FsEntry) → List Str → List (Str × List FsEntry) × List Str
  | [], stack, ids => (stack, ids)
  | FsEntry.dir name entries :: rest, stack, ids =>
    processEntries extname current rest ((joinPath current name, entries) :: stack) ids
  | FsEntry.file name content :: rest, stack, ids =>
    if DOC_EXTENSIONS.contains (extname name) then
      processEntries extname current rest stack
        (setAdd ids (readDocId extname (joinPath current name) content))
    else processEntries extname current rest stack ids

/-- The `while` loop of `collectDocIds`, which runs at most `fuel` times; the result is `none`
when the loop has not ended by then. -/
def collectLoop (extname : Str → Str) :
    Nat → List (Str × List FsEntry) → List Str → Option (List Str)
  | _, [], ids => some ids
  | 0, _ :: _, _ => none
  | fuel + 1, (current, entries) :: stack, ids =>
    collectLoop extname fuel (processEntries extname current entries stack ids).1
      (processEntries extname current entries stack ids).2

/-- The function `collectDocIds` on the root directory given by its entries. -/
def collectDocIds (extname : Str → Str) (fuel : Nat) (root : List FsEntry) : Option (List Str) :=
  collectLoop extname fuel [([], root)] []

mutual
/-- The files in or under an entry of the directory `current`, each with its relative path,
its name and its content. -/
def filesOfEntry : Str → FsEntry → List (Str × Str × Str)
  | current, FsEntry.file name content => [(joinPath current name, name, content)]
  | current, FsEntry.dir name entries => filesOf (joinPath current name) entries
/-- The files at any depth under the directory `current` with the given entries. -/
def filesOf : Str → List FsEntry → List (Str × Str × Str)
  | _, [] => []
  | current, entry :: rest => filesOfEntry current entry ++ filesOf current rest
end

mutual
/-- The number of directories in or under an entry. -/
def dirCountEntry : FsEntry → Nat
  | FsEntry.file _ _ => 0
  | FsEntry.dir _ entries => 1 + dirCount entries
/-- The number of directories at any depth under a directory with the given entries. -/
def dirCount : List FsEntry → Nat
  | [] => 0
  | entry :: rest => dirCountEntry entry + dirCount rest
end

/-- The segment of a line between its first and its second colon, or from its first colon
to its end when there is no second colon. -/
def colonSegment (line : Str) : Str :=
  ((line.dropWhile (fun c => c != ':')).drop 1).takeWhile (fun c => c != ':')

/-- The id `id` is the one that `readDocId` gives to some file at any depth under the
directory `current` whose extension is in `DOC_EXTENSIONS`. -/
def IsDocIdUnder (extname : Str → Str) (id : Str) (current : Str) (entries : List FsEntry) :
    Prop :=
  ∃ f ∈ filesOf current entries,
    DOC_EXTENSIONS.contains (extname f.2.1) = true ∧ id = readDocId extname f.1 f.2.2

/-- The number of directories that the loop of `collectDocIds` has still to read: those on
the stack and all those under them. -/
def stackDirs (stack : List (Str × List FsEntry)) : Nat :=
  (stack.map (fun p => 1 + dirCount p.2)).sum

/-! ## The scan loop -/

theorem scanFrom_cons (name : Str) (line : Str) (rest : List Str) (index : Nat) (inFence : Bool)
    (failures : List Violation) :
    scanFrom name (line :: rest) index inFence failures =
      scanFrom name rest (index + 1) (xor inFence (isFenceLine line))
        (failures ++ if isFenceLine line || inFence then [] else lineReport name (index + 1) line) := by
  cases hf : isFenceLine line <;> cases inFence <;>
    cases ht : tagHazard line <;> cases hb : braceHazard line <;>
    simp [scanFrom, lineReport, hf, ht, hb]

theorem scanFrom_append (name : Str) (lines : List Str) :
    ∀ (index : Nat) (inFence : Bool) (failures : List Violation),
      scanFrom name lines index inFence failures =
        failures ++ scanFrom name lines index inFence [] := by
  induction lines with
  | nil => intro index inFence failures; simp [scanFrom]
  | cons line rest ih =>
    intro index inFence failures
    rw [scanFrom_cons, scanFrom_cons, ih _ _ (failures ++ _), ih _ _ ([] ++ _)]
    simp

theorem scanFrom_step (name : Str) (line : Str) (rest : List Str) (index : Nat) (inFence : Bool) :
    scanFrom name (line :: rest) index inFence [] =
      (if isFenceLine line || inFence then [] else lineReport name (index + 1) line) ++
        scanFrom name rest (index + 1) (xor inFence (isFenceLine line)) [] := by
  rw [scanFrom_cons, scanFrom_append]
  simp

theorem mem_lineReport (name : Str) (n : Nat) (line : Str) (v : Violation) :
    v ∈ lineReport name n line ↔ v.file = name ∧ v.line = n ∧ hasHazard v.hazard line = true := by
  obtain ⟨f, l, h⟩ := v
  cases h <;> cases ht : tagHazard line <;> cases hb : braceHazard line <;>
    simp [lineReport, hasHazard, ht, hb]

/-- Every failure of the loop carries the file name and a line number within the range of the
lines that remain. -/
theorem scanFrom_range (name : Str) (lines : List Str) :
    ∀ (index : Nat) (inFence : Bool) (v : Violation),
      v ∈ scanFrom name lines index inFence [] →
        v.file = name ∧ index < v.line ∧ v.line ≤ index + lines.length := by
  induction lines with
  | nil => intro index inFence v hv; simp [scanFrom] at hv
  | cons line rest ih =>
    intro index inFence v hv
    rw [scanFrom_step, List.mem_append] at hv
    rcases hv with hv | hv
    · split at hv
      · simp at hv
      · rw [mem_lineReport] at hv
        refine ⟨hv.1, ?_, ?_⟩ <;> simp [hv.2.1]
    · obtain ⟨h1, h2, h3⟩ := ih _ _ v hv
      refine ⟨h1, by omega, ?_⟩
      simp only [List.length_cons]; omega

theorem decide_succ_odd (n : Nat) :
    decide ((n + 1) % 2 = 1) = !decide (n % 2 = 1) := by
  rcases Nat.mod_two_eq_zero_or_one n with h | h <;> simp [Nat.add_mod, h]

/-- Membership in the result of the loop: the line is at some offset `j` from `index`, it is
no fence marker, the fence state on reaching it is "outside", and it contains the hazard. -/
theorem mem_scanFrom (name : Str) (lines : List Str) :
    ∀ (index : Nat) (inFence : Bool) (v : Violation),
      v ∈ scanFrom name lines index inFence [] ↔
        ∃ j line, lines[j]? = some line ∧ v.file = name ∧ v.line = index + j + 1 ∧
          isFenceLine line = false ∧
          xor inFence (decide (fenceCount (lines.take j) % 2 = 1)) = false ∧
          hasHazard v.hazard line = true := by
  induction lines with
  | nil => intro index inFence v; simp [scanFrom]
  | cons l rest ih =>
    intro index inFence v
    rw [scanFrom_step, List.mem_append, ih]
    constructor
    · rintro (hv | ⟨j, line, hj, hf, hl, hnf, hst, hh⟩)
      · split at hv
        · simp at hv
        · rename_i hc
          simp only [Bool.or_eq_true, not_or, Bool.not_eq_true] at hc
          rw [mem_lineReport] at hv
          refine ⟨0, l, by simp, hv.1, by simp [hv.2.1], hc.1, ?_, hv.2.2⟩
          simp [fenceCount, hc.2]
      · refine ⟨j + 1, line, by simpa using hj, hf, by omega, hnf, ?_, hh⟩
        rw [← hst]
        cases hl2 : isFenceLine l <;> cases inFence <;>
          simp [fenceCount, List.countP_cons, hl2, decide_succ_odd]
    · rintro ⟨j, line, hj, hf, hl, hnf, hst, hh⟩
      cases j with
      | zero =>
        left
        simp only [List.getElem?_cons_zero, Option.some.injEq] at hj
        subst hj
        simp [fenceCount] at hst
        simp [hnf, hst, mem_lineReport, hf, hl, hh]
      | succ j =>
        right
        refine ⟨j, line, by simpa using hj, hf, by omega, hnf, ?_, hh⟩
        rw [← hst]
        cases hl2 : isFenceLine l <;> cases inFence <;>
          simp [fenceCount, List.countP_cons, hl2, decide_succ_odd]

/-- The number of failures of the loop for the line at offset `j` and one hazard: one when the
line is scanned outside a fence and contains the hazard, none otherwise. -/
theorem countP_scanFrom (name : Str) (h : Hazard) (lines : List Str) :
    ∀ (index : Nat) (inFence : Bool) (j : Nat) (line : Str), lines[j]? = some line →
      (scanFrom name lines index inFence []).countP
          (fun v => v.line == index + j + 1 && v.hazard == h) =
        if isFenceLine line = false ∧
            xor inFence (decide (fenceCount (lines.take j) % 2 = 1)) = false ∧
            hasHazard h line = true then 1 else 0 := by
  induction lines with
  | nil => intro index inFence j line hj; simp at hj
  | cons l rest ih =>
    intro index inFence j line hj
    rw [scanFrom_step, List.countP_append]
    cases j with
    | zero =>
      simp only [List.getElem?_cons_zero, Option.some.injEq] at hj
      subst hj
      have hrest : (scanFrom name rest (index + 1) (xor inFence (isFenceLine l)) []).countP
          (fun v => v.line == index + 0 + 1 && v.hazard == h) = 0 := by
        rw [List.countP_eq_zero]
        intro v hv
        have := (scanFrom_range name rest _ _ v hv).2.1
        simp only [Nat.add_zero, Bool.and_eq_true, beq_iff_eq, not_and]
        intro h1; omega
      rw [hrest]
      cases hf : isFenceLine l <;> cases inFence <;> cases h <;>
        cases ht : tagHazard l <;> cases hb : braceHazard l <;>
        simp [fenceCount, lineReport, hasHazard, ht, hb, List.countP_cons]
    | succ j =>
      have hj2 : rest[j]? = some line := by simpa using hj
      have hhead : (if isFenceLine l || inFence then []
          else lineReport name (index + 1) l).countP
            (fun v => v.line == index + (j + 1) + 1 && v.hazard == h) = 0 := by
        rw [List.countP_eq_zero]
        intro v hv
        split at hv
        · simp at hv
        · rw [mem_lineReport] at hv
          simp only [Bool.and_eq_true, beq_iff_eq, not_and]
          intro h1; omega
      have hidx : index + (j + 1) + 1 = index + 1 + j + 1 := by omega
      rw [hhead, hidx, ih _ _ j line hj2, Nat.zero_add]
      cases hl2 : isFenceLine l <;> cases inFence <;>
        simp [fenceCount, List.countP_cons, hl2, decide_succ_odd]

theorem includes_singleton (c : Char) (s : Str) : includes s [c] = true ↔ c ∈ s := by
  induction s with
  | nil => simp [includes]
  | cons d t ih =>
    simp only [includes, startsWith, Bool.or_eq_true, ih, List.mem_cons]
    constructor
    · rintro (h | h)
      · left
        simpa [List.isPrefixOf] using h
      · exact Or.inr h
    · rintro (h | h)
      · left
        simp [List.isPrefixOf, h]
      · exact Or.inr h

/-- The regular expression test in words: some `<` of the line is immediately followed by an
ASCII letter. -/
theorem MDX_JSX_RE_test_iff (line : Str) :
    MDX_JSX_RE_test line = true ↔
      ∃ pre c post, line = pre ++ '<' :: c :: post ∧ isAsciiLetter c = true := by
  induction line with
  | nil => simp [MDX_JSX_RE_test]
  | cons d t ih =>
    simp only [MDX_JSX_RE_test, Bool.or_eq_true, Bool.and_eq_true, beq_iff_eq, ih]
    constructor
    · rintro (⟨hd, ht⟩ | ⟨pre, c, post, ht, hc⟩)
      · cases t with
        | nil => simp at ht
        | cons e u => exact ⟨[], e, u, by simp [hd], ht⟩
      · exact ⟨d :: pre, c, post, by simp [ht], hc⟩
    · rintro ⟨pre, c, post, hl, hc⟩
      cases pre with
      | nil =>
        left
        simp only [List.nil_append, List.cons.injEq] at hl
        obtain ⟨h1, h2⟩ := hl
        subst h2
        exact ⟨h1, hc⟩
      | cons e pre =>
        right
        simp only [List.cons_append, List.cons.injEq] at hl
        exact ⟨pre, c, post, hl.2, hc⟩

theorem lineAt_eq_some (lines : List Str) (k : Nat) (line : Str) :
    lineAt lines k = some line ↔ ∃ j, k = j + 1 ∧ lines[j]? = some line := by
  cases k with
  | zero => simp [lineAt]
  | succ j => simp [lineAt]

theorem even_iff_not_odd (n : Nat) : n % 2 = 0 ↔ decide (n % 2 = 1) = false := by
  rcases Nat.mod_two_eq_zero_or_one n with h | h <;> simp [h]

/-! ## The markup-safety scan: fences and hazards -/

/-- The failures of a file, by line and hazard. -/
theorem scanFile_reports_aux (name content : Str) (k : Nat) (h : Hazard) :
    (⟨name, k, h⟩ : Violation) ∈ scanFile name content ↔
      ∃ line, lineAt (splitLines content) k = some line ∧ isFenceLine line = false ∧
        fenceCount ((splitLines content).take (k - 1)) % 2 = 0 ∧ hasHazard h line = true := by
  rw [scanFile, scanFileInto, mem_scanFrom]
  constructor
  · rintro ⟨j, line, hj, -, hl, hnf, hst, hh⟩
    simp only [Nat.zero_add] at hl
    subst hl
    refine ⟨line, (lineAt_eq_some _ _ _).2 ⟨j, rfl, hj⟩, hnf, ?_, hh⟩
    rw [even_iff_not_odd]
    simpa using hst
  · rintro ⟨line, hline, hnf, hev, hh⟩
    obtain ⟨j, rfl, hj⟩ := (lineAt_eq_some _ _ _).1 hline
    refine ⟨j, line, hj, rfl, by simp, hnf, ?_, hh⟩
    rw [even_iff_not_odd] at hev
    simpa using hev

/-- C1: the scan of a file reports line `k` (1-based) for a hazard exactly when line `k` of
the content, split on `\n` or `\r\n`, is no fence marker, is preceded by an even number of
fence markers, and contains the hazard: a `<` directly followed by an ASCII letter for the tag
hazard, a brace for the brace hazard. A line with `<Foo` and a brace between an opening and
a closing fence marker is not reported; the same line outside any fence is reported for
both hazards. -/
theorem scanFile_reports_iff (name content : Str) (k : Nat) (h : Hazard) :
    ((⟨name, k, h⟩ : Violation) ∈ scanFile name content ↔
      ∃ line, lineAt (splitLines content) k = some line ∧ isFenceLine line = false ∧
        fenceCount ((splitLines content).take (k - 1)) % 2 = 0 ∧ hasHazard h line = true) ∧
    (∀ line, hasHazard Hazard.tag line = true ↔
      ∃ pre c post, line = pre ++ '<' :: c :: post ∧ isAsciiLetter c = true) ∧
    (∀ line, hasHazard Hazard.brace line = true ↔ (LBRACE ∈ line ∨ RBRACE ∈ line)) ∧
    scanFile "x.md".toList "```\n<Foo \x7bbar\n```\n".toList = [] ∧
    scanFile "x.md".toList "<Foo \x7bbar\n".toList =
      [⟨"x.md".toList, 1, Hazard.tag⟩, ⟨"x.md".toList, 1, Hazard.brace⟩] ∧
    scanFile "x.md".toList "```\n<Foo\n```\n<Foo\n".toList =
      [⟨"x.md".toList, 4, Hazard.tag⟩] := by
  refine ⟨scanFile_reports_aux name content k h, MDX_JSX_RE_test_iff, ?_,
    by decide, by decide, by decide⟩
  intro line
  simp [hasHazard, braceHazard, includes_singleton]

/-- C2: for a line scanned outside a fence, the tag failure is recorded exactly when the line
contains a `<` immediately followed by an ASCII letter (`A`-`Z` or `a`-`z`). So `<div>` is
flagged, while `a < b`, `value <= 5`, `</div>` and a line ending in `<` are not. -/
theorem tag_hazard_iff (name content : Str) (k : Nat) (line : Str)
    (hout : scannedOutside (splitLines content) k line) :
    ((⟨name, k, Hazard.tag⟩ : Violation) ∈ scanFile name content ↔
      ∃ pre c post, line = pre ++ '<' :: c :: post ∧
        ((65 ≤ c.toNat ∧ c.toNat ≤ 90) ∨ (97 ≤ c.toNat ∧ c.toNat ≤ 122))) ∧
    scanFile "x.md".toList "<div>".toList = [⟨"x.md".toList, 1, Hazard.tag⟩] ∧
    scanFile "x.md".toList "a < b".toList = [] ∧
    scanFile "x.md".toList "value <= 5".toList = [] ∧
    scanFile "x.md".toList "</div>".toList = [] ∧
    scanFile "x.md".toList "a <".toList = [] := by
  refine ⟨?_, by decide, by decide, by decide, by decide, by decide⟩
  obtain ⟨hline, hnf, hev⟩ := hout
  have hrep := (scanFile_reports_aux name content k Hazard.tag)
  rw [hrep]
  constructor
  · rintro ⟨l, hl, -, -, hh⟩
    rw [hline] at hl
    cases hl
    obtain ⟨pre, c, post, h1, h2⟩ := (MDX_JSX_RE_test_iff line).1 hh
    exact ⟨pre, c, post, h1, by simpa [isAsciiLetter] using h2⟩
  · rintro ⟨pre, c, post, h1, h2⟩
    exact ⟨line, hline, hnf, hev,
      (MDX_JSX_RE_test_iff line).2 ⟨pre, c, post, h1, by simpa [isAsciiLetter] using h2⟩⟩

/-- The hypothesis of C2 holds for the one-line file `<div>`, whose line 1 is flagged. -/
theorem tag_hazard_iff_witness :
    scannedOutside (splitLines "<div>".toList) 1 "<div>".toList ∧
      ((⟨"x.md".toList, 1, Hazard.tag⟩ : Violation) ∈ scanFile "x.md".toList "<div>".toList ↔
        ∃ pre c post, "<div>".toList = pre ++ '<' :: c :: post ∧
          ((65 ≤ c.toNat ∧ c.toNat ≤ 90) ∨ (97 ≤ c.toNat ∧ c.toNat ≤ 122))) :=
  ⟨⟨by decide, by decide, by decide⟩,
    (tag_hazard_iff "x.md".toList "<div>".toList 1 "<div>".toList
      ⟨by decide, by decide, by decide⟩).1⟩

/-- C3: for a line scanned outside a fence, the scan records exactly one brace failure for
that line when the line contains an opening or a closing brace at any position, however many
braces it contains, and none when it contains no brace. -/
theorem brace_once_per_line (name content : Str) (k : Nat) (line : Str)
    (hout : scannedOutside (splitLines content) k line) :
    ((scanFile name content).countP (fun v => v.line == k && v.hazard == Hazard.brace) =
      if LBRACE ∈ line ∨ RBRACE ∈ line then 1 else 0) ∧
    scanFile "x.md".toList "a\x7bb\x7d \x7b\x7b c".toList =
      [⟨"x.md".toList, 1, Hazard.brace⟩] := by
  refine ⟨?_, by decide⟩
  obtain ⟨hline, hnf, hev⟩ := hout
  obtain ⟨j, rfl, hj⟩ := (lineAt_eq_some _ _ _).1 hline
  have hc := countP_scanFrom name Hazard.brace (splitLines content) 0 false j line hj
  rw [Nat.zero_add] at hc
  rw [scanFile, scanFileInto, hc]
  have hodd : decide (fenceCount ((splitLines content).take j) % 2 = 1) = false :=
    (even_iff_not_odd _).1 (by simpa using hev)
  have hb : hasHazard Hazard.brace line = true ↔ (LBRACE ∈ line ∨ RBRACE ∈ line) := by
    simp [hasHazard, braceHazard, includes_singleton]
  simp only [hnf, hodd, Bool.false_xor, true_and, hb]

/-- The hypothesis of C3 holds for a one-line file with four braces, which gets one failure. -/
theorem brace_once_per_line_witness :
    scannedOutside (splitLines "a\x7bb\x7d \x7b\x7b c".toList) 1 "a\x7bb\x7d \x7b\x7b c".toList ∧
      (scanFile "x.md".toList "a\x7bb\x7d \x7b\x7b c".toList).countP
          (fun v => v.line == 1 && v.hazard == Hazard.brace) =
        if LBRACE ∈ "a\x7bb\x7d \x7b\x7b c".toList ∨ RBRACE ∈ "a\x7bb\x7d \x7b\x7b c".toList
        then 1 else 0 :=
  ⟨⟨by decide, by decide, by decide⟩,
    (brace_once_per_line "x.md".toList "a\x7bb\x7d \x7b\x7b c".toList 1
      "a\x7bb\x7d \x7b\x7b c".toList ⟨by decide, by decide, by decide⟩).1⟩

/-! ## The sidebar: collection of the referenced ids -/

theorem pushDocId_eq (props : List (Str × JsValue)) (collected : List Str) :
    pushDocId props collected = collected ++ docIdOf props := by
  unfold pushDocId docIdOf
  split
  · split <;> simp
  · simp

mutual
theorem collectItem_eq : ∀ (item : JsValue) (collected : List Str),
    collectItem item collected = collected ++ contribution item
  | JsValue.undefined, collected => by simp [collectItem, contribution]
  | JsValue.null, collected => by simp [collectItem, contribution]
  | JsValue.bool _, collected => by simp [collectItem, contribution]
  | JsValue.num _, collected => by simp [collectItem, contribution]
  | JsValue.str s, collected => by simp [collectItem, contribution]
  | JsValue.arr _, collected => by simp [collectItem, contribution]
  | JsValue.obj props, collected => by
    rw [collectItem, contribution, collectItemsOf_eq props, pushDocId_eq, List.append_assoc]
theorem collectItemsOf_eq : ∀ (props : List (Str × JsValue)) (collected : List Str),
    collectItemsOf props collected = collected ++ contributionOfItems props
  | [], collected => by simp [collectItemsOf, contributionOfItems]
  | (k, v) :: rest, collected => by
    have ih := collectItemsOf_eq rest collected
    by_cases hk : k = "items".toList
    · cases v with
      | arr elems =>
        have ih2 := collectSidebarDocIds_eq elems collected
        simp only [collectItemsOf, contributionOfItems, if_pos hk, ih2]
      | _ => simp [collectItemsOf, contributionOfItems, hk]
    · cases v <;> simp only [collectItemsOf, contributionOfItems, if_neg hk, ih]
theorem collectSidebarDocIds_eq : ∀ (items : List JsValue) (collected : List Str),
    collectSidebarDocIds items collected = collected ++ contributions items
  | [], collected => by simp [collectSidebarDocIds, contributions]
  | item :: rest, collected => by
    rw [collectSidebarDocIds, contributions, collectSidebarDocIds_eq rest,
      collectItem_eq item, List.append_assoc]
end

theorem contributions_eq_flatMap (items : List JsValue) :
    contributions items = items.flatMap contribution := by
  induction items with
  | nil => simp [contributions]
  | cons item rest ih => simp [contributions, ih]

theorem contributionOfItems_eq (props : List (Str × JsValue)) :
    contributionOfItems props =
      match getProp props "items".toList with
      | JsValue.arr elems => elems.flatMap contribution
      | _ => [] := by
  induction props with
  | nil => simp [contributionOfItems, getProp]
  | cons kv rest ih =>
    obtain ⟨k, v⟩ := kv
    by_cases hk : k = "items".toList
    · cases v <;> simp only [contributionOfItems, getProp, if_pos hk, contributions_eq_flatMap]
    · cases v <;> simp only [contributionOfItems, getProp, if_neg hk, ih]

theorem collect_eq_flatMap (items : List JsValue) :
    collectSidebarDocIds items [] = items.flatMap contribution := by
  rw [collectSidebarDocIds_eq, contributions_eq_flatMap, List.nil_append]

theorem contribution_obj (props : List (Str × JsValue)) :
    contribution (JsValue.obj props) =
      docIdOf props ++
        match getProp props "items".toList with
        | JsValue.arr elems => elems.flatMap contribution
        | _ => [] := by
  rw [contribution, contributionOfItems_eq]

theorem docIdOf_eq_singleton (props : List (Str × JsValue)) (id : Str) :
    docIdOf props = [id] ↔
      getProp props "type".toList = JsValue.str "doc".toList ∧
        getProp props "id".toList = JsValue.str id := by
  unfold docIdOf
  split
  · rename_i t i ht hi
    rw [ht, hi]
    by_cases h : t = "doc".toList
    · rw [if_pos h, h]
      simp
    · rw [if_neg h]
      simp only [JsValue.str.injEq]
      constructor
      · intro h1; cases h1
      · intro h1; exact absurd h1.1 h
  · rename_i hne
    constructor
    · intro h1; cases h1
    · intro h1; exact absurd h1.2 (hne _ _ h1.1)

theorem docIdOf_eq_nil (props : List (Str × JsValue)) :
    docIdOf props = [] ↔
      ¬ (getProp props "type".toList = JsValue.str "doc".toList ∧
        ∃ id, getProp props "id".toList = JsValue.str id) := by
  unfold docIdOf
  split
  · rename_i t i ht hi
    rw [ht, hi]
    by_cases h : t = "doc".toList
    · rw [if_pos h, h]
      simp
    · rw [if_neg h]
      simp only [JsValue.str.injEq, true_iff, not_and]
      intro h1; exact absurd h1 h
  · rename_i hne
    simp only [true_iff, not_and, not_exists]
    intro h1 id h2
    exact hne _ _ h1 h2

theorem mem_collect_of_nested (s : Str) :
    ∀ (n : Nat) (items : List JsValue), NestedIn s n items →
      s ∈ collectSidebarDocIds items [] := by
  intro n
  induction n with
  | zero =>
    intro items h
    rw [collect_eq_flatMap, List.mem_flatMap]
    rcases h with h | ⟨props, hmem, htype, hid⟩
    · exact ⟨JsValue.str s, h, by simp [contribution]⟩
    · refine ⟨JsValue.obj props, hmem, ?_⟩
      rw [contribution_obj, (docIdOf_eq_singleton props s).2 ⟨htype, hid⟩]
      exact List.mem_append_left _ (List.mem_singleton.2 rfl)
  | succ n ih =>
    intro items h
    obtain ⟨props, elems, hmem, -, hitems, hnest⟩ := h
    have hs := ih elems hnest
    rw [collect_eq_flatMap] at hs
    rw [collect_eq_flatMap, List.mem_flatMap]
    refine ⟨JsValue.obj props, hmem, ?_⟩
    rw [contribution_obj, hitems]
    exact List.mem_append_right _ hs

theorem mem_missingIds (sidebarDocIds docIds : List Str) (id : Str) :
    id ∈ missingIds sidebarDocIds docIds ↔ id ∈ sidebarDocIds ∧ id ∉ docIds := by
  simp [missingIds]

theorem validateSidebars_eq (ds : Option (List JsValue)) (docIds : List Str) :
    validateSidebars ds docIds =
      if missingIds ((ds.getD []).flatMap contribution) docIds = [] then
        ⟨[], ["Sidebar validation passed.".toList], 0⟩
      else
        ⟨"Sidebar references missing doc ids:".toList ::
          (missingIds ((ds.getD []).flatMap contribution) docIds).map
            (fun id => "- ".toList ++ id), [], 1⟩ := by
  unfold validateSidebars
  rw [collect_eq_flatMap]
  simp only []
  generalize missingIds ((ds.getD []).flatMap contribution) docIds = m
  cases m <;> simp

theorem validateSidebars_exitCode (ds : Option (List JsValue)) (docIds : List Str) :
    (validateSidebars ds docIds).exitCode =
      if missingIds ((ds.getD []).flatMap contribution) docIds = [] then 0 else 1 := by
  rw [validateSidebars_eq]
  split <;> rfl

theorem missingIds_eq_nil (sidebarDocIds docIds : List Str) :
    missingIds sidebarDocIds docIds = [] ↔ ∀ id ∈ sidebarDocIds, id ∈ docIds := by
  simp [missingIds, List.filter_eq_nil_iff]

/-! ## The claims on the sidebar check -/

/-- C4: for every navigation sequence, `collectSidebarDocIds` returns the concatenation, in
sequence order, of the contributions of the entries: a string contributes itself; an object
contributes its `id` when its `type` is `"doc"` and its `id` a string, followed by the
collection of its `items` when `items` is an array, whatever its `type`; any other entry
contributes nothing. For `docsSidebar` of `sidebars.js` the result is the 20 ids of the file
in document order. -/
theorem collectSidebarDocIds_contributions (items : List JsValue) :
    collectSidebarDocIds items [] = items.flatMap contribution ∧
    (∀ s, contribution (JsValue.str s) = [s]) ∧
    (∀ props, contribution (JsValue.obj props) =
      docIdOf props ++
        match getProp props "items".toList with
        | JsValue.arr elems => elems.flatMap contribution
        | _ => []) ∧
    (∀ props id, docIdOf props = [id] ↔
      getProp props "type".toList = JsValue.str "doc".toList ∧
        getProp props "id".toList = JsValue.str id) ∧
    (∀ props, docIdOf props = [] ↔
      ¬ (getProp props "type".toList = JsValue.str "doc".toList ∧
        ∃ id, getProp props "id".toList = JsValue.str id)) ∧
    contribution JsValue.undefined = [] ∧ contribution JsValue.null = [] ∧
    (∀ b, contribution (JsValue.bool b) = []) ∧ (∀ n, contribution (JsValue.num n) = []) ∧
    (∀ elems, contribution (JsValue.arr elems) = []) ∧
    collectSidebarDocIds docsSidebar [] = docsSidebarIds ∧ docsSidebarIds.length = 20 := by
  refine ⟨collect_eq_flatMap items, ?_, contribution_obj, docIdOf_eq_singleton, docIdOf_eq_nil,
    ?_, ?_, ?_, ?_, ?_, by decide, by decide⟩ <;> intros <;> simp [contribution]

/-- C5: the sidebar check ends with status 1 exactly when some id referenced by the sidebar is
absent from the set of document ids; when every referenced id exists, also when nothing is
referenced, it ends with status 0 and the line of success. -/
theorem validateSidebars_fails_iff (ds : Option (List JsValue)) (docIds : List Str) :
    ((validateSidebars ds docIds).exitCode = 1 ↔
      ∃ id ∈ (ds.getD []).flatMap contribution, id ∉ docIds) ∧
    ((validateSidebars ds docIds = ⟨[], ["Sidebar validation passed.".toList], 0⟩) ↔
      ∀ id ∈ (ds.getD []).flatMap contribution, id ∈ docIds) ∧
    ((validateSidebars ds docIds).exitCode = 1 ∨ (validateSidebars ds docIds).exitCode = 0) ∧
    validateSidebars (some []) docIds = ⟨[], ["Sidebar validation passed.".toList], 0⟩ ∧
    validateSidebars none docIds = ⟨[], ["Sidebar validation passed.".toList], 0⟩ := by
  have hnil := missingIds_eq_nil ((ds.getD []).flatMap contribution) docIds
  refine ⟨?_, ?_, ?_, by simp [validateSidebars, collectSidebarDocIds, missingIds],
    by simp [validateSidebars, collectSidebarDocIds, missingIds]⟩
  · rw [validateSidebars_exitCode]
    by_cases h : missingIds ((ds.getD []).flatMap contribution) docIds = []
    · rw [if_pos h]
      have := hnil.1 h
      simp only [zero_ne_one, false_iff, not_exists, not_and, not_not]
      exact this
    · rw [if_neg h]
      simp only [true_iff]
      by_contra hc
      exact h (hnil.2 (by simpa using hc))
  · rw [← hnil, validateSidebars_eq]
    by_cases h : missingIds ((ds.getD []).flatMap contribution) docIds = []
    · simp [h]
    · simp [h]
  · rw [validateSidebars_exitCode]
    split <;> simp

/-- C6: the missing ids reported by the sidebar check are the collected referenced ids that
are not in the set of document ids, in the order of the sidebar, one line `- id` each after
the heading, and nothing is reported when there is none. For the references `index`,
`guide/setup`, `missing-page` and the documents `index`, `guide/setup` exactly one missing id
is reported, `missing-page`, and the check fails. -/
theorem missing_report_eq (ds : Option (List JsValue)) (docIds : List Str) :
    (validateSidebars ds docIds).stderr =
      (if (collectSidebarDocIds (ds.getD []) []).filter (fun id => decide (id ∉ docIds)) = []
        then []
        else "Sidebar references missing doc ids:".toList ::
          ((collectSidebarDocIds (ds.getD []) []).filter (fun id => decide (id ∉ docIds))).map
            (fun id => "- ".toList ++ id)) ∧
    validateSidebars
        (some [JsValue.str "index".toList, JsValue.str "guide/setup".toList,
          JsValue.str "missing-page".toList])
        ["index".toList, "guide/setup".toList] =
      ⟨["Sidebar references missing doc ids:".toList, "- missing-page".toList], [], 1⟩ := by
  refine ⟨?_, by decide⟩
  have hm : ∀ l : List Str, l.filter (fun id => decide (id ∉ docIds)) = missingIds l docIds := by
    intro l
    unfold missingIds
    congr 1
    funext id
    simp
  rw [hm, validateSidebars_eq, collect_eq_flatMap]
  split <;> rfl

/-- C10: an id nested `n` levels deep inside category nodes is collected, for every depth
`n`, whether the entry that references it is a bare string or an object of type `"doc"`, and
it is validated: when it is no document id the check reports it and ends with status 1. An
id at depth 3 is collected in either form. -/
theorem nested_id_validated (n : Nat) (s : Str) (items : List JsValue) (docIds : List Str)
    (hnest : NestedIn s n items) :
    s ∈ collectSidebarDocIds items [] ∧
    (s ∉ docIds →
      (validateSidebars (some items) docIds).exitCode = 1 ∧
        ("- ".toList ++ s) ∈ (validateSidebars (some items) docIds).stderr) ∧
    collectSidebarDocIds
        [wrapCategory (wrapCategory (wrapCategory (JsValue.str "deep".toList)))] [] =
      ["deep".toList] ∧
    collectSidebarDocIds
        [wrapCategory (wrapCategory (wrapCategory
          (JsValue.obj [("type".toList, JsValue.str "doc".toList),
            ("id".toList, JsValue.str "deep".toList)])))] [] =
      ["deep".toList] := by
  have hs := mem_collect_of_nested s n items hnest
  refine ⟨hs, ?_, by decide, by decide⟩
  intro hmiss
  rw [collect_eq_flatMap] at hs
  have hm : s ∈ missingIds ((Option.getD (some items) []).flatMap contribution) docIds :=
    (mem_missingIds _ _ _).2 ⟨hs, hmiss⟩
  have hne : missingIds ((Option.getD (some items) []).flatMap contribution) docIds ≠ [] :=
    List.ne_nil_of_mem hm
  rw [validateSidebars_eq, if_neg hne]
  exact ⟨rfl, List.mem_cons_of_mem _ (List.mem_map_of_mem _ hm)⟩

/-- The hypothesis of C10 holds for an id referenced by an object of type `"doc"` at depth 3,
which is collected and, being no document id, makes the check fail. -/
theorem nested_id_validated_witness :
    NestedIn "deep".toList 3
        [JsValue.str "index".toList,
          wrapCategory (wrapCategory (wrapCategory
            (JsValue.obj [("type".toList, JsValue.str "doc".toList),
              ("id".toList, JsValue.str "deep".toList)])))] ∧
      "deep".toList ∈ collectSidebarDocIds
        [JsValue.str "index".toList,
          wrapCategory (wrapCategory (wrapCategory
            (JsValue.obj [("type".toList, JsValue.str "doc".toList),
              ("id".toList, JsValue.str "deep".toList)])))] [] ∧
      (validateSidebars
        (some [JsValue.str "index".toList,
          wrapCategory (wrapCategory (wrapCategory
            (JsValue.obj [("type".toList, JsValue.str "doc".toList),
              ("id".toList, JsValue.str "deep".toList)])))])
        ["index".toList]).exitCode = 1 :=
  have hn : NestedIn "deep".toList 3
      [JsValue.str "index".toList,
        wrapCategory (wrapCategory (wrapCategory
          (JsValue.obj [("type".toList, JsValue.str "doc".toList),
            ("id".toList, JsValue.str "deep".toList)])))] :=
    ⟨_, _, List.mem_cons_of_mem _ (List.mem_singleton.2 rfl), rfl, rfl,
      _, _, List.mem_singleton.2 rfl, rfl, rfl,
      _, _, List.mem_singleton.2 rfl, rfl, rfl,
      Or.inr ⟨_, List.mem_singleton.2 rfl, rfl, rfl⟩⟩
  ⟨hn, (nested_id_validated 3 "deep".toList _ ["index".toList] hn).1,
    ((nested_id_validated 3 "deep".toList _ ["index".toList] hn).2.1 (by decide)).1⟩

/-! ## The id of a document -/

theorem startsWith_nil_left (sub : Str) : startsWith [] sub = sub.isEmpty := by
  cases sub <;> simp [startsWith, List.isPrefixOf]

theorem indexOfAux_eq_none (sub : Str) (t : Str) :
    ∀ pos, indexOfAux sub t pos = none ↔ ∀ j, j ≤ t.length → startsWith (t.drop j) sub = false := by
  induction t with
  | nil =>
    intro pos
    simp only [indexOfAux, List.length_nil, Nat.le_zero_eq, forall_eq, List.drop_nil,
      startsWith_nil_left]
    cases sub <;> simp
  | cons c t ih =>
    intro pos
    rw [indexOfAux]
    constructor
    · intro h j hj
      split at h
      · cases h
      · rename_i hc
        cases j with
        | zero => simpa using hc
        | succ j => exact (ih _).1 h j (by simpa using hj)
    · intro h
      have h0 := h 0 (Nat.zero_le _)
      simp only [List.drop_zero] at h0
      rw [if_neg (by simp [h0])]
      exact (ih _).2 (fun j hj => h (j + 1) (by simpa using hj))

theorem indexOfAux_eq_some (sub : Str) (t : Str) :
    ∀ pos r, indexOfAux sub t pos = some r ↔
      ∃ j, r = pos + j ∧ j ≤ t.length ∧ startsWith (t.drop j) sub = true ∧
        ∀ i, i < j → startsWith (t.drop i) sub = false := by
  induction t with
  | nil =>
    intro pos r
    simp only [indexOfAux, List.length_nil, Nat.le_zero_eq, List.drop_nil, startsWith_nil_left]
    constructor
    · intro h
      split at h
      · rename_i hs
        cases h
        exact ⟨0, rfl, rfl, hs, by simp⟩
      · cases h
    · rintro ⟨j, rfl, rfl, hs, -⟩
      simp [hs]
  | cons c t ih =>
    intro pos r
    rw [indexOfAux]
    by_cases hc : startsWith (c :: t) sub = true
    · rw [if_pos hc]
      constructor
      · intro h
        cases h
        exact ⟨0, rfl, Nat.zero_le _, hc, by simp⟩
      · rintro ⟨j, rfl, -, -, hlt⟩
        cases j with
        | zero => rfl
        | succ j =>
          have := hlt 0 (Nat.succ_pos _)
          simp only [List.drop_zero] at this
          rw [this] at hc
          cases hc
    · rw [if_neg hc, ih]
      constructor
      · rintro ⟨j, rfl, hj, hs, hlt⟩
        refine ⟨j + 1, by omega, by simpa using hj, hs, ?_⟩
        intro i hi
        cases i with
        | zero => simpa using hc
        | succ i => exact hlt i (by omega)
      · rintro ⟨j, rfl, hj, hs, hlt⟩
        cases j with
        | zero => exact absurd hs hc
        | succ j =>
          exact ⟨j, by omega, by simpa using hj, hs,
            fun i hi => hlt (i + 1) (by omega)⟩

theorem startsWith_drop_of_length_le (s sub : Str) (i : Nat) (hsub : sub ≠ [])
    (hi : s.length ≤ i) : startsWith (s.drop i) sub = false := by
  rw [List.drop_of_length_le hi, startsWith_nil_left]
  cases sub with
  | nil => exact absurd rfl hsub
  | cons _ _ => rfl

/-- `indexOf` returns `-1` exactly when the text occurs at no position from `start` on. -/
theorem indexOf_eq_none (s sub : Str) (start : Nat) (hsub : sub ≠ []) :
    indexOf s sub start = none ↔ ∀ i, start ≤ i → startsWith (s.drop i) sub = false := by
  rw [indexOf, indexOfAux_eq_none]
  constructor
  · intro h i hi
    have := h (i - start)
    by_cases hl : i ≤ s.length
    · have h2 := this (by simp only [List.length_drop]; omega)
      rw [List.drop_drop] at h2
      have he : start + (i - start) = i := by omega
      rwa [he] at h2
    · exact startsWith_drop_of_length_le s sub i hsub (by omega)
  · intro h j _
    rw [List.drop_drop]
    exact h _ (by omega)

/-- `indexOf` returns the first position from `start` on at which the text occurs. -/
theorem indexOf_eq_some (s sub : Str) (start e : Nat) (hsub : sub ≠ []) :
    indexOf s sub start = some e ↔
      start ≤ e ∧ startsWith (s.drop e) sub = true ∧
        ∀ i, start ≤ i → i < e → startsWith (s.drop i) sub = false := by
  rw [indexOf, indexOfAux_eq_some]
  have hlen : ∀ k, startsWith (s.drop k) sub = true → k < s.length := by
    intro k hk
    by_contra hc
    rw [startsWith_drop_of_length_le s sub k hsub (by omega)] at hk
    cases hk
  constructor
  · rintro ⟨j, rfl, hj, hs, hlt⟩
    rw [List.drop_drop] at hs
    have hstart : start < s.length := by have := hlen _ hs; omega
    rw [Nat.min_eq_left (Nat.le_of_lt hstart)]
    refine ⟨by omega, hs, ?_⟩
    intro i h1 h2
    have := hlt (i - start) (by omega)
    rw [List.drop_drop] at this
    have he : start + (i - start) = i := by omega
    rwa [he] at this
  · rintro ⟨h1, hs, hlt⟩
    have he := hlen _ hs
    refine ⟨e - start, ?_, ?_, ?_, ?_⟩
    · rw [Nat.min_eq_left (by omega)]; omega
    · simp only [List.length_drop]; omega
    · rw [List.drop_drop]
      have : start + (e - start) = e := by omega
      rwa [this]
    · intro i hi
      rw [List.drop_drop]
      exact hlt _ (by omega) (by omega)

theorem closing_ne_nil : "\n---".toList ≠ [] := by decide

theorem indexOf_of_closesAt (content : Str) (e : Nat) (h : closesAt content e) :
    indexOf content "\n---".toList 3 = some e :=
  (indexOf_eq_some content _ 3 e closing_ne_nil).2 h

theorem indexOf_of_noClosing (content : Str) (h : noClosing content) :
    indexOf content "\n---".toList 3 = none :=
  (indexOf_eq_none content _ 3 closing_ne_nil).2 h

theorem find_isIdLine_eq_none (lines : List Str) (h : ∀ line ∈ lines, isIdLine line = false) :
    lines.find? isIdLine = none := by
  rw [List.find?_eq_none]
  intro line hl
  simp [h line hl]

/-- C9: when the content does not begin with `---`, or has no closing delimiter `\n---`
after the opening one, or no line of its front-matter block has a trimmed form starting with
`id:`, `readDocId` returns the default id derived from the path. -/
theorem readDocId_default (extname : Str → Str) (relative content : Str)
    (h : startsWith content "---".toList = false ∨ noClosing content ∨
      ∃ e, closesAt content e ∧
        ∀ line ∈ split '\n' (slice content 3 e), startsWith (trim line) "id:".toList = false) :
    readDocId extname relative content = defaultId extname relative := by
  unfold readDocId
  rcases h with h | h | ⟨e, he, hl⟩
  · rw [h]
    rfl
  · rw [indexOf_of_noClosing content h]
    split <;> rfl
  · rw [indexOf_of_closesAt content e he]
    simp only []
    rw [find_isIdLine_eq_none _ hl]
    split <;> rfl

/-- The hypothesis of C9 holds for a front-matter block without an `id:` line, for content
without front matter, and the default id of `guide/setup.md` is `guide/setup`. -/
theorem readDocId_default_witness :
    (startsWith "---\ntitle: x\n---\nbody".toList "---".toList = false ∨
      noClosing "---\ntitle: x\n---\nbody".toList ∨
      ∃ e, closesAt "---\ntitle: x\n---\nbody".toList e ∧
        ∀ line ∈ split '\n' (slice "---\ntitle: x\n---\nbody".toList 3 e),
          startsWith (trim line) "id:".toList = false) ∧
      readDocId posixExtname "guide/setup.md".toList "---\ntitle: x\n---\nbody".toList =
        defaultId posixExtname "guide/setup.md".toList :=
  have h : startsWith "---\ntitle: x\n---\nbody".toList "---".toList = false ∨
      noClosing "---\ntitle: x\n---\nbody".toList ∨
      ∃ e, closesAt "---\ntitle: x\n---\nbody".toList e ∧
        ∀ line ∈ split '\n' (slice "---\ntitle: x\n---\nbody".toList 3 e),
          startsWith (trim line) "id:".toList = false :=
    Or.inr (Or.inr ⟨12, by decide, by decide⟩)
  ⟨h, readDocId_default posixExtname "guide/setup.md".toList "---\ntitle: x\n---\nbody".toList h⟩

theorem slice_zero_neg (x e : Str) (he : e ≠ []) :
    slice (x ++ e) 0 (-(e.length : Int)) = x := by
  have hpos : 0 < e.length := List.length_pos.2 he
  have h1 : relIndex (x ++ e).length (-(e.length : Int)) = x.length := by
    unfold relIndex
    rw [if_pos (by omega)]
    simp only [List.length_append, Nat.cast_add]
    omega
  have h0 : relIndex (x ++ e).length 0 = 0 := by simp [relIndex]
  rw [slice, h1, h0, List.drop_zero, List.take_left']
  rfl

/-- The default id of a path with the extension `.md` or `.mdx`, when `path.extname` reports
that extension for the path with its separators normalised. -/
theorem defaultId_strips_extension (extname : Str → Str) (p e : Str)
    (he : e = ".md".toList ∨ e = ".mdx".toList)
    (hext : extname (normalizeSeparators (p ++ e)) = e) :
    defaultId extname (p ++ e) = normalizeSeparators p := by
  have hmap : normalizeSeparators (p ++ e) = normalizeSeparators p ++ e := by
    unfold normalizeSeparators
    rw [List.map_append]
    congr 1
    rcases he with rfl | rfl <;> decide
  have hne : e ≠ [] := by rcases he with rfl | rfl <;> decide
  unfold defaultId
  simp only []
  rw [hext, hmap]
  exact slice_zero_neg _ _ hne

/-- C8, at the failing input: on a POSIX host the file `a\.md` has the relative path `a\`
followed by the extension `.md`, its content has no front matter, and `readDocId` returns the
empty string, not `a/`. After the backslash has become a separator, `path.extname` finds no
extension in `a/.md`, and `slice(0, -0)` is the empty string. A path such as `guide/setup.md`
or `guide\setup.mdx` resolves to `guide/setup`. -/
theorem readDocId_backslash_before_dot :
    posixExtname "a\\.md".toList = ".md".toList ∧
    startsWith "# Title".toList "---".toList = false ∧
    readDocId posixExtname ("a\\".toList ++ ".md".toList) "# Title".toList = [] ∧
    normalizeSeparators "a\\".toList = "a/".toList ∧
    posixExtname (normalizeSeparators "a\\.md".toList) = [] ∧
    readDocId posixExtname "guide/setup.md".toList "# Title".toList = "guide/setup".toList ∧
    readDocId posixExtname "guide\\setup.mdx".toList "# Title".toList =
      "guide/setup".toList := by
  decide

/-- C7, at the failing input: the front matter declares `id: a:b`, and `readDocId` returns
`a`, the text between the first and the second colon of the line, not the value `a:b`. The
declaration `id: "custom-id"` resolves to `custom-id`. -/
theorem readDocId_value_with_colon :
    readDocId posixExtname "x.md".toList "---\nid: a:b\n---\nbody".toList = "a".toList ∧
    stripQuotes (trim "a:b".toList) = "a:b".toList ∧
    readDocId posixExtname "x.md".toList "---\nid: \"custom-id\"\n---\nbody".toList =
      "custom-id".toList := by
  decide

/-! ### A front-matter block given by its lines -/

theorem closing_eq : "\n---".toList = ['\n', '-', '-', '-'] := by decide

theorem dashes_eq : "---".toList = ['-', '-', '-'] := by decide

theorem split_of_not_mem (sep : Char) (w : Str) (h : sep ∉ w) : split sep w = [w] := by
  induction w with
  | nil => rfl
  | cons c t ih =>
    simp only [List.mem_cons, not_or] at h
    rw [split, if_neg (fun hc => h.1 hc.symm), ih h.2]

theorem split_append_sep (sep : Char) (w t : Str) (h : sep ∉ w) :
    split sep (w ++ sep :: t) = w :: split sep t := by
  induction w with
  | nil => simp [split]
  | cons c u ih =>
    simp only [List.mem_cons, not_or] at h
    rw [List.cons_append, split, if_neg (fun hc => h.1 hc.symm), ih h.2]

theorem split_joinLines (lines : List Str) (hne : lines ≠ [])
    (hnl : ∀ l ∈ lines, '\n' ∉ l) : split '\n' (joinLines lines) = lines := by
  induction lines with
  | nil => exact absurd rfl hne
  | cons l ls ih =>
    cases ls with
    | nil => exact split_of_not_mem _ _ (hnl l (List.mem_singleton.2 rfl))
    | cons l2 ls =>
      rw [joinLines, split_append_sep _ _ _ (hnl l (List.mem_cons_self _ _)),
        ih (List.cons_ne_nil _ _) (fun x hx => hnl x (List.mem_cons_of_mem _ hx))]

theorem indexOfAux_skip_line (l t : Str) (hl : '\n' ∉ l) :
    ∀ pos, indexOfAux "\n---".toList (l ++ t) pos =
      indexOfAux "\n---".toList t (pos + l.length) := by
  induction l with
  | nil => intro pos; rfl
  | cons c u ih =>
    intro pos
    simp only [List.mem_cons, not_or] at hl
    have hc : startsWith (c :: (u ++ t)) "\n---".toList = false := by
      have : ('\n' == c) = false := by simpa using hl.1
      simp [startsWith, List.isPrefixOf, this]
    rw [List.cons_append, indexOfAux, if_neg (by rw [hc]; simp), ih hl.2]
    simp only [List.length_cons]
    congr 1
    omega

theorem startsWith_dashes_append (l t : Str) (h : startsWith l "---".toList = false) :
    startsWith (l ++ '\n' :: t) "---".toList = false := by
  match l, h with
  | [], _ => rfl
  | [a], h =>
    by_cases ha : a = '-'
    · subst ha; rfl
    · have : ('-' == a) = false := by simpa using fun h => ha h.symm
      simp [startsWith, List.isPrefixOf, this]
  | [a, b], h =>
    by_cases ha : a = '-'
    · by_cases hb : b = '-'
      · subst ha; subst hb; rfl
      · have : ('-' == b) = false := by simpa using fun h => hb h.symm
        simp [startsWith, List.isPrefixOf, this]
    · have : ('-' == a) = false := by simpa using fun h => ha h.symm
      simp [startsWith, List.isPrefixOf, this]
  | a :: b :: c :: u, h =>
    simpa [startsWith, List.isPrefixOf] using h

theorem joinLines_cons_append (l : Str) (ls : List Str) (z : Str) :
    ∃ y, joinLines (l :: ls) ++ '\n' :: z = l ++ '\n' :: y := by
  cases ls with
  | nil => exact ⟨z, rfl⟩
  | cons l2 ls => exact ⟨joinLines (l2 :: ls) ++ '\n' :: z, by simp [joinLines]⟩

theorem indexOfAux_joinLines (rest : Str) (lines : List Str)
    (hnl : ∀ l ∈ lines, '\n' ∉ l)
    (hdash : ∀ l ∈ lines.tail, startsWith l "---".toList = false) :
    ∀ pos, indexOfAux "\n---".toList (joinLines lines ++ ("\n---".toList ++ rest)) pos =
      some (pos + (joinLines lines).length) := by
  have hbase : ∀ pos, indexOfAux "\n---".toList ("\n---".toList ++ rest) pos = some pos := by
    intro pos
    rw [closing_eq]
    simp [indexOfAux, startsWith, List.isPrefixOf]
  induction lines with
  | nil => intro pos; simpa [joinLines] using hbase pos
  | cons l ls ih =>
    intro pos
    cases ls with
    | nil =>
      rw [joinLines, indexOfAux_skip_line _ _ (hnl l (List.mem_singleton.2 rfl)), hbase]
    | cons l2 ls =>
      have hl2 : startsWith l2 "---".toList = false := hdash l2 (List.mem_cons_self _ _)
      obtain ⟨y, hy⟩ := joinLines_cons_append l2 ls ("---".toList ++ rest)
      have hx : joinLines (l2 :: ls) ++ ("\n---".toList ++ rest) = l2 ++ '\n' :: y := by
        rw [← hy, closing_eq, dashes_eq]
        rfl
      have hhead : startsWith ('\n' :: (joinLines (l2 :: ls) ++ ("\n---".toList ++ rest)))
          "\n---".toList = false := by
        rw [hx]
        have := startsWith_dashes_append l2 y hl2
        simpa [startsWith, List.isPrefixOf] using this
      rw [joinLines, List.append_assoc, indexOfAux_skip_line _ _ (hnl l (List.mem_cons_self _ _)),
        List.cons_append, indexOfAux, if_neg (by rw [hhead]; simp),
        ih (fun x hx => hnl x (List.mem_cons_of_mem _ hx))
          (fun x hx => hdash x (List.mem_cons_of_mem _ hx))]
      simp only [List.length_append, List.length_cons]
      congr 1
      omega

theorem dropWhile_concat_of_neg (p : Char → Bool) (xs : Str) (c : Char) (hc : p c = false) :
    (xs ++ [c]).dropWhile p = xs.dropWhile p ++ [c] := by
  induction xs with
  | nil => simp [List.dropWhile, hc]
  | cons x xs ih =>
    by_cases hx : p x = true
    · simp [List.dropWhile, hx, ih]
    · simp [List.dropWhile, hx]

theorem trimEnd_cons_of_neg (c : Char) (b : Str) (hc : isJsWhiteSpace c = false) :
    trimEnd (c :: b) = c :: trimEnd b := by
  simp [trimEnd, dropWhile_concat_of_neg _ _ _ hc]

theorem isIdLine_idKey (r : Str) : isIdLine ('i' :: 'd' :: ':' :: r) = true := by
  have h1 : trimStart ('i' :: 'd' :: ':' :: r) = 'i' :: 'd' :: ':' :: r := by
    simp [trimStart, List.dropWhile, show isJsWhiteSpace 'i' = false by decide]
  rw [isIdLine, trim, h1, trimEnd_cons_of_neg _ _ (by decide), trimEnd_cons_of_neg _ _ (by decide),
    trimEnd_cons_of_neg _ _ (by decide)]
  simp [startsWith, List.isPrefixOf]

theorem trim_space_cons (v : Str) : trim (' ' :: v) = trim v := by
  simp [trim, trimStart, List.dropWhile, show isJsWhiteSpace ' ' = true by decide]

theorem split_idLine (v : Str) (hv : ':' ∉ v) :
    split ':' ('i' :: 'd' :: ':' :: ' ' :: v) = ['i' :: ['d'], ' ' :: v] := by
  have hw : ':' ∉ ' ' :: v := by
    simp only [List.mem_cons, not_or]
    exact ⟨by decide, hv⟩
  have h := split_append_sep ':' ['i', 'd'] (' ' :: v) (by decide)
  rw [split_of_not_mem _ _ hw] at h
  exact h

theorem find_isIdLine_append (before after : List Str) (idLine : Str)
    (hfirst : ∀ l ∈ before, isIdLine l = false) (hid : isIdLine idLine = true) :
    (before ++ idLine :: after).find? isIdLine = some idLine := by
  induction before with
  | nil => simp [List.find?, hid]
  | cons b bs ih =>
    rw [List.cons_append, List.find?, hfirst b (List.mem_cons_self _ _)]
    exact ih (fun l hl => hfirst l (List.mem_cons_of_mem _ hl))

theorem slice_frontmatter (block tail : Str) :
    slice ('-' :: '-' :: '-' :: (block ++ tail)) 3 ((3 + block.length : Nat) : Int) = block := by
  have h1 : relIndex ('-' :: '-' :: '-' :: (block ++ tail)).length
      ((3 + block.length : Nat) : Int) = 3 + block.length := by
    unfold relIndex
    rw [if_neg (by omega)]
    simp only [Int.toNat_ofNat, List.length_cons, List.length_append]
    omega
  have h0 : relIndex ('-' :: '-' :: '-' :: (block ++ tail)).length 3 = 3 := by
    unfold relIndex
    rw [if_neg (by omega)]
    simp only [List.length_cons, List.length_append]
    omega
  rw [slice, h1, h0]
  have h3 : (3 + block.length) = block.length + 1 + 1 + 1 := by omega
  rw [h3]
  simp

/-- The front matter in which the line `id: V` is the first line whose trimmed form starts
with `id:`, and `V` contains no colon: `readDocId` returns `V`, trimmed and without one layer
of surrounding quotes. The block is given by its lines, none of which contains a newline or,
after the first one, begins with `---`. -/
theorem readDocId_frontmatter_id (extname : Str → Str) (relative : Str)
    (before after : List Str) (v rest : Str)
    (hnl : ∀ l ∈ before ++ ("id: ".toList ++ v) :: after, '\n' ∉ l)
    (hdash : ∀ l ∈ (before ++ ("id: ".toList ++ v) :: after).tail,
      startsWith l "---".toList = false)
    (hfirst : ∀ l ∈ before, startsWith (trim l) "id:".toList = false)
    (hv : ':' ∉ v) :
    readDocId extname relative
        ("---".toList ++ (joinLines (before ++ ("id: ".toList ++ v) :: after) ++
          ("\n---".toList ++ rest))) =
      stripQuotes (trim v) := by
  have hline : "id: ".toList ++ v = 'i' :: 'd' :: ':' :: ' ' :: v := by
    rw [show "id: ".toList = ['i', 'd', ':', ' '] by decide]
    rfl
  rw [hline] at hnl hdash ⊢
  generalize hb : joinLines (before ++ ('i' :: 'd' :: ':' :: ' ' :: v) :: after) = block
  have hidx : indexOf ("---".toList ++ (block ++ ("\n---".toList ++ rest))) "\n---".toList 3 =
      some (3 + block.length) := by
    have := indexOfAux_joinLines rest _ hnl hdash 3
    rw [hb] at this
    rw [indexOf, dashes_eq]
    simpa using this
  have hsl : slice ("---".toList ++ (block ++ ("\n---".toList ++ rest))) 3
      ((3 + block.length : Nat) : Int) = block := by
    rw [dashes_eq]
    exact slice_frontmatter block _
  have hsp : split '\n' block = before ++ ('i' :: 'd' :: ':' :: ' ' :: v) :: after := by
    rw [← hb]
    exact split_joinLines _ (by simp) hnl
  have hst : startsWith ("---".toList ++ (block ++ ("\n---".toList ++ rest))) "---".toList
      = true := by
    rw [dashes_eq]
    simp [startsWith, List.isPrefixOf]
  unfold readDocId
  rw [if_pos hst, hidx]
  simp only []
  rw [hsl, hsp, find_isIdLine_append before after _ hfirst (isIdLine_idKey _)]
  simp only []
  rw [if_pos (by simp), split_idLine v hv]
  simp only [List.getElem?_cons_succ, List.getElem?_cons_zero]
  rw [if_pos (by simp), trim_space_cons]

/-! ## The markup-safety check: the files and the verdict -/

theorem scanFileInto_eq (name content : Str) (failures : List Violation) :
    scanFileInto name content failures = failures ++ scanFile name content := by
  rw [scanFile, scanFileInto, scanFileInto, scanFrom_append]

theorem scanFiles_of_reads (host : MetaHost) (pairs : List (Str × Str))
    (hread : ∀ entry ∈ pairs, readContent host entry.1 = some entry.2) :
    ∀ failures, scanFiles host (pairs.map Prod.fst) failures =
      some (failures ++ pairs.flatMap (fun entry => scanFile entry.1 entry.2)) := by
  induction pairs with
  | nil => intro failures; simp [scanFiles]
  | cons entry rest ih =>
    intro failures
    rw [List.map_cons, scanFiles, hread entry (List.mem_cons_self _ _)]
    simp only []
    rw [ih (fun e he => hread e (List.mem_cons_of_mem _ he)), scanFileInto_eq]
    simp

theorem scanFiles_file (host : MetaHost) (names : List Str) :
    ∀ failures result, scanFiles host names failures = some result →
      ∀ v ∈ result, v ∈ failures ∨ v.file ∈ names := by
  induction names with
  | nil =>
    intro failures result h v hv
    simp only [scanFiles, Option.some.injEq] at h
    subst h
    exact Or.inl hv
  | cons name rest ih =>
    intro failures result h v hv
    rw [scanFiles] at h
    cases hc : readContent host name with
    | none => rw [hc] at h; cases h
    | some content =>
      rw [hc] at h
      simp only [] at h
      rcases ih _ _ h v hv with h1 | h1
      · rw [scanFileInto_eq, List.mem_append] at h1
        rcases h1 with h1 | h1
        · exact Or.inl h1
        · exact Or.inr (List.mem_cons.2
            (Or.inl (scanFrom_range name _ 0 false v h1).1))
      · exact Or.inr (List.mem_cons_of_mem _ h1)

theorem checkMdxSafety_of_failures (host : MetaHost) (failures : List Violation)
    (h : allFailures host = some failures) :
    checkMdxSafety host =
      some (if failures = [] then
        ⟨[], ["MDX safety check passed for ".toList ++ toDecimal (metaFiles host).length ++
          " _meta docs.".toList], 0⟩
      else
        ⟨["MDX safety check failed:\n".toList ++ joinLines (failures.map message)],
          [], 1⟩) := by
  unfold allFailures at h
  unfold checkMdxSafety
  rw [h]
  cases failures <;> simp

theorem checkMdxSafety_eq_some (host : MetaHost) (o : Outcome)
    (h : checkMdxSafety host = some o) :
    ∃ failures, allFailures host = some failures ∧
      o = (if failures = [] then
        ⟨[], ["MDX safety check passed for ".toList ++ toDecimal (metaFiles host).length ++
          " _meta docs.".toList], 0⟩
      else
        ⟨["MDX safety check failed:\n".toList ++ joinLines (failures.map message)],
          [], 1⟩) := by
  cases hf : allFailures host with
  | none =>
    unfold allFailures at hf
    unfold checkMdxSafety at h
    rw [hf] at h
    cases h
  | some failures =>
    rw [checkMdxSafety_of_failures host failures hf] at h
    exact ⟨failures, rfl, (Option.some.inj h).symm⟩

/-- The failures of a directory whose names are read with the contents of their own files:
the concatenation, over the names ending in `.md`, of the failures of each file. -/
theorem allFailures_of_reads (host : MetaHost) (pairs : List (Str × Str))
    (hnames : metaFiles host = pairs.map Prod.fst)
    (hread : ∀ entry ∈ pairs, readContent host entry.1 = some entry.2) :
    allFailures host = some (pairs.flatMap (fun entry => scanFile entry.1 entry.2)) := by
  rw [allFailures, hnames, scanFiles_of_reads host pairs hread, List.nil_append]

/-- C11, at the failing input: in the directory with the files `A.md`, of content `ok`, and
`%41.md`, of content `<div>`, the file `%41.md` has a tag failure at line 1, but the script
reads the file `A.md` for both names, records nothing and ends with the line of success for
2 files. The URL of a name is made of the name as it is, and `%41` in a URL stands for `A`.
In the directory with the single file `a#b.md`, which has no failure, `readFile` throws for
the URL of the name and the script ends with that error. -/
theorem checkMdxSafety_percent_name :
    metaFiles percentDir = ["%41.md".toList, "A.md".toList] ∧
    percentDir.readFile (META_URL ++ "%2541.md".toList) = some "<div>".toList ∧
    scanFile "%41.md".toList "<div>".toList = [⟨"%41.md".toList, 1, Hazard.tag⟩] ∧
    readContent percentDir "%41.md".toList = some "ok".toList ∧
    allFailures percentDir = some [] ∧
    checkMdxSafety percentDir =
      some ⟨[], ["MDX safety check passed for 2 _meta docs.".toList], 0⟩ ∧
    scanFile "a#b.md".toList "ok".toList = [] ∧
    checkMdxSafety hashOnlyDir = none := by
  decide

/-- C16, at the failing input: in the directory with the files `a`, of content `ok`, and
`a#b.md`, of content `<div>`, the file `a#b.md` has a tag failure at line 1, but the script
reads the file `a` for the name `a#b.md` and records nothing. With the contents exchanged
the file `a#b.md` has no failure and the name `a` does not end in `.md`, but the script
records the failure of the content of `a` under the name `a#b.md`. The URL of a name is made
of the name as it is, and the text from `#` on is the fragment of the URL. -/
theorem allFailures_hash_name :
    metaFiles hashDir = ["a#b.md".toList] ∧
    hashDir.readFile (META_URL ++ "a%23b.md".toList) = some "<div>".toList ∧
    scanFile "a#b.md".toList "<div>".toList = [⟨"a#b.md".toList, 1, Hazard.tag⟩] ∧
    readContent hashDir "a#b.md".toList = some "ok".toList ∧
    allFailures hashDir = some [] ∧
    hashDirSwapped.readFile (META_URL ++ "a%23b.md".toList) = some "ok".toList ∧
    scanFile "a#b.md".toList "ok".toList = [] ∧
    isMetaDoc "a".toList = false ∧
    allFailures hashDirSwapped = some [⟨"a#b.md".toList, 1, Hazard.tag⟩] ∧
    allFailures (plainDir [("a.md".toList, "```\n<Foo\n".toList),
        ("b.txt".toList, "<Foo".toList), ("c.md".toList, "<Foo\n".toList)]) =
      some [⟨"c.md".toList, 1, Hazard.tag⟩] := by
  decide

/-- C12: a line whose trimmed form begins with three backticks gets no failure, whatever it
contains and whether it opens or closes a fence: no failure of the file carries its line
number. A fence line with the info string `js` and braces, and a closing fence line followed
by a tag, are not reported. -/
theorem fence_line_not_reported (name content : Str) (k : Nat) (line : Str)
    (hline : lineAt (splitLines content) k = some line) (hfence : isFenceLine line = true) :
    (∀ v ∈ scanFile name content, v.line ≠ k) ∧
    scanFile "x.md".toList "```js \x7b1,3\x7d\ncode\n``` <b>\n".toList = [] ∧
    scanFile "x.md".toList "  ```<Foo\x7d".toList = [] := by
  refine ⟨?_, by decide, by decide⟩
  intro v hv hk
  rw [scanFile, scanFileInto, mem_scanFrom] at hv
  obtain ⟨j, line2, hj, -, hl, hnf, -, -⟩ := hv
  obtain ⟨j2, hk2, hj2⟩ := (lineAt_eq_some _ _ _).1 hline
  have : j = j2 := by omega
  subst this
  rw [hj] at hj2
  cases hj2
  rw [hfence] at hnf
  cases hnf

/-- The hypotheses of C12 hold for the opening fence line of a file, which carries braces. -/
theorem fence_line_not_reported_witness :
    lineAt (splitLines "```js \x7b1,3\x7d\ncode\n```\n".toList) 1 =
        some "```js \x7b1,3\x7d".toList ∧
      isFenceLine "```js \x7b1,3\x7d".toList = true ∧
      ∀ v ∈ scanFile "x.md".toList "```js \x7b1,3\x7d\ncode\n```\n".toList, v.line ≠ 1 :=
  ⟨by decide, by decide,
    (fence_line_not_reported "x.md".toList "```js \x7b1,3\x7d\ncode\n```\n".toList 1
      "```js \x7b1,3\x7d".toList (by decide) (by decide)).1⟩

theorem scanFrom_lines_append (name : Str) (lines1 lines2 : List Str) :
    ∀ (index : Nat) (inFence : Bool),
      scanFrom name (lines1 ++ lines2) index inFence [] =
        scanFrom name lines1 index inFence [] ++
          scanFrom name lines2 (index + lines1.length)
            (xor inFence (decide (fenceCount lines1 % 2 = 1))) [] := by
  induction lines1 with
  | nil => intro index inFence; simp [scanFrom, fenceCount]
  | cons l rest ih =>
    intro index inFence
    rw [List.cons_append, scanFrom_step, scanFrom_step, ih, List.append_assoc]
    have hidx : index + 1 + rest.length = index + (l :: rest).length := by
      simp only [List.length_cons]; omega
    rw [hidx]
    congr 3
    cases hl : isFenceLine l <;> cases inFence <;>
      simp [fenceCount, List.countP_cons, hl, decide_succ_odd]

theorem scanFrom_inside (name : Str) (lines : List Str)
    (hno : ∀ l ∈ lines, isFenceLine l = false) :
    ∀ index, scanFrom name lines index true [] = [] := by
  induction lines with
  | nil => intro index; rfl
  | cons l rest ih =>
    intro index
    rw [scanFrom_step, hno l (List.mem_cons_self _ _)]
    simpa using ih (fun x hx => hno x (List.mem_cons_of_mem _ hx)) (index + 1)

theorem fenceCount_eq_zero (lines : List Str) (hno : ∀ l ∈ lines, isFenceLine l = false) :
    fenceCount lines = 0 := by
  rw [fenceCount, List.countP_eq_zero]
  intro l hl
  simp [hno l hl]

/-- C13: in a file with an odd number of fence markers the scan is inside the fence from the
last fence marker to the end of the file. With `f` the last fence marker, at line
`before.length + 1`: after every line from `f` on an odd number of fence markers has been seen,
the failures of the file are those of the lines before `f`, and no failure carries the line
number of `f` or of a later line. The failures are tag and brace failures only, so the
unterminated fence is not reported. -/
theorem unterminated_fence_silent (name content : Str) (before after : List Str) (f : Str)
    (hsplit : splitLines content = before ++ f :: after)
    (hf : isFenceLine f = true)
    (hlast : ∀ l ∈ after, isFenceLine l = false)
    (hodd : fenceCount (splitLines content) % 2 = 1) :
    (∀ j, before.length < j → j ≤ (splitLines content).length →
      fenceCount ((splitLines content).take j) % 2 = 1) ∧
    scanFile name content = scanFrom name before 0 false [] ∧
    (∀ v ∈ scanFile name content, v.line ≤ before.length) ∧
    scanFile "x.md".toList "<a>\n```\n<b>\n\x7b\n".toList = [⟨"x.md".toList, 1, Hazard.tag⟩] := by
  have hcount : fenceCount (before ++ f :: after) = fenceCount before + 1 := by
    have hz := fenceCount_eq_zero after hlast
    simp only [fenceCount, List.countP_append, List.countP_cons, hf, if_true] at hz ⊢
    omega
  have hev : fenceCount before % 2 = 0 := by
    rw [hsplit, hcount] at hodd
    omega
  have hscan : scanFile name content = scanFrom name before 0 false [] := by
    rw [scanFile, scanFileInto, hsplit, scanFrom_lines_append, scanFrom_step, hf]
    have hst : xor false (decide (fenceCount before % 2 = 1)) = false := by
      simp [hev]
    rw [hst]
    simp only [Bool.true_or, if_true, List.nil_append, Bool.false_xor]
    rw [scanFrom_inside name after hlast, List.append_nil]
  refine ⟨?_, hscan, ?_, by decide⟩
  · intro j hj1 hj2
    rw [hsplit]
    obtain ⟨d, rfl⟩ : ∃ d, j = before.length + (d + 1) := ⟨j - before.length - 1, by omega⟩
    rw [List.take_append, List.take_succ_cons]
    have hz : fenceCount (after.take d) = 0 :=
      fenceCount_eq_zero _ (fun l hl => hlast l (List.mem_of_mem_take hl))
    have : fenceCount (before ++ f :: after.take d) = fenceCount before + 1 := by
      simp only [fenceCount, List.countP_append, List.countP_cons, hf, if_true] at hz ⊢
      omega
    rw [this]
    omega
  · intro v hv
    rw [hscan] at hv
    have := (scanFrom_range name before 0 false v hv).2.2
    omega

/-- The hypotheses of C13 hold for a file whose second line opens a fence that is never
closed: its failures all carry line 1. -/
theorem unterminated_fence_silent_witness :
    splitLines "<a>\n```\n<b>\n\x7b".toList =
        ["<a>".toList] ++ "```".toList :: ["<b>".toList, "\x7b".toList] ∧
      ∀ v ∈ scanFile "x.md".toList "<a>\n```\n<b>\n\x7b".toList, v.line ≤ 1 :=
  ⟨by decide,
    (unterminated_fence_silent "x.md".toList "<a>\n```\n<b>\n\x7b".toList
      ["<a>".toList] ["<b>".toList, "\x7b".toList] "```".toList
      (by decide) (by decide) (by decide) (by decide)).2.2.1⟩

/-! ## Line endings -/

theorem splitLines_lf (t : Str) : splitLines ('\n' :: t) = [] :: splitLines t := by
  rw [splitLines]

theorem splitLines_crlf (t : Str) : splitLines ('\r' :: '\n' :: t) = [] :: splitLines t := by
  rw [splitLines]

theorem splitLines_cons_of_ne (c : Char) (t : Str) (hn : c ≠ '\n') (hr : c ≠ '\r') :
    splitLines (c :: t) =
      match splitLines t with
      | [] => [[c]]
      | l :: ls => (c :: l) :: ls := by
  rw [splitLines]
  · intro t2 h
    exact absurd h hr
  · intro h
    exact hn h

theorem splitLines_toCrlf (content : Str) (hcr : '\r' ∉ content) :
    splitLines (toCrlf content) = splitLines content := by
  induction content with
  | nil => rfl
  | cons c t ih =>
    simp only [List.mem_cons, not_or] at hcr
    have iht := ih hcr.2
    by_cases hc : c = '\n'
    · subst hc
      have : toCrlf ('\n' :: t) = '\r' :: '\n' :: toCrlf t := by simp [toCrlf]
      rw [this, splitLines_crlf, splitLines_lf, iht]
    · have : toCrlf (c :: t) = c :: toCrlf t := by simp [toCrlf, hc]
      rw [this, splitLines_cons_of_ne c _ hc (fun h => hcr.1 h.symm),
        splitLines_cons_of_ne c _ hc (fun h => hcr.1 h.symm), iht]

/-- C14: for a content without carriage return, replacing every `\n` by `\r\n` changes
neither the lines nor the failures of the file, with their file name, line number and
hazard. -/
theorem scanFile_crlf (name content : Str) (hcr : '\r' ∉ content) :
    splitLines (toCrlf content) = splitLines content ∧
    scanFile name (toCrlf content) = scanFile name content ∧
    (scanFile name (toCrlf content)).map message = (scanFile name content).map message ∧
    toCrlf "a\n<b>\n".toList = "a\r\n<b>\r\n".toList ∧
    scanFile "x.md".toList "a\r\n<b>\r\n".toList = [⟨"x.md".toList, 2, Hazard.tag⟩] := by
  have h := splitLines_toCrlf content hcr
  have h2 : scanFile name (toCrlf content) = scanFile name content := by
    rw [scanFile, scanFileInto, h]
    rfl
  exact ⟨h, h2, by rw [h2], by decide, by decide⟩

/-- The hypothesis of C14 holds for a file of two lines, scanned with either line ending. -/
theorem scanFile_crlf_witness :
    '\r' ∉ "a\n<b>\n".toList ∧
      scanFile "x.md".toList (toCrlf "a\n<b>\n".toList) =
        scanFile "x.md".toList "a\n<b>\n".toList :=
  ⟨by decide, (scanFile_crlf "x.md".toList "a\n<b>\n".toList (by decide)).2.1⟩

/-! ## Order and bounds of the failures of a file -/

theorem scanFrom_sorted (name : Str) (lines : List Str) :
    ∀ (index : Nat) (inFence : Bool),
      ((scanFrom name lines index inFence []).map Violation.line).Pairwise (· ≤ ·) := by
  induction lines with
  | nil => intro index inFence; simp [scanFrom]
  | cons l rest ih =>
    intro index inFence
    rw [scanFrom_step, List.map_append, List.pairwise_append]
    refine ⟨?_, ih _ _, ?_⟩
    · split
      · simp
      · cases ht : tagHazard l <;> cases hb : braceHazard l <;> simp [lineReport, ht, hb]
    · intro a ha b hb
      rw [List.mem_map] at ha hb
      obtain ⟨v, hv, rfl⟩ := ha
      obtain ⟨w, hw, rfl⟩ := hb
      have hw2 := (scanFrom_range name rest _ _ w hw).2.1
      split at hv
      · simp at hv
      · rw [mem_lineReport] at hv
        omega

theorem countP_scanFrom_le_one (name : Str) (h : Hazard) (lines : List Str) (index : Nat)
    (inFence : Bool) (k : Nat) :
    (scanFrom name lines index inFence []).countP (fun v => v.line == k && v.hazard == h) ≤ 1 := by
  by_cases hk : index < k ∧ k ≤ index + lines.length
  · obtain ⟨j, rfl⟩ : ∃ j, k = index + j + 1 := ⟨k - index - 1, by omega⟩
    have hj : j < lines.length := by omega
    rw [countP_scanFrom name h lines index inFence j lines[j] (List.getElem?_eq_getElem hj)]
    split <;> simp
  · have : (scanFrom name lines index inFence []).countP
        (fun v => v.line == k && v.hazard == h) = 0 := by
      rw [List.countP_eq_zero]
      intro v hv
      have hr := scanFrom_range name lines index inFence v hv
      simp only [Bool.and_eq_true, beq_iff_eq, not_and]
      intro h1
      omega
    omega

theorem countP_line_split (l : List Violation) (k : Nat) :
    l.countP (fun v => v.line == k) =
      l.countP (fun v => v.line == k && v.hazard == Hazard.tag) +
        l.countP (fun v => v.line == k && v.hazard == Hazard.brace) := by
  induction l with
  | nil => rfl
  | cons v rest ih =>
    obtain ⟨f, n, hz⟩ := v
    simp only [List.countP_cons, ih]
    by_cases hn : n = k <;> cases hz <;> simp [hn] <;> omega

theorem scanFrom_adjacent (name : Str) (lines : List Str) :
    ∀ (index : Nat) (inFence : Bool) (k : Nat),
      (⟨name, k, Hazard.tag⟩ : Violation) ∈ scanFrom name lines index inFence [] →
      (⟨name, k, Hazard.brace⟩ : Violation) ∈ scanFrom name lines index inFence [] →
      ∃ pre post, scanFrom name lines index inFence [] =
        pre ++ ⟨name, k, Hazard.tag⟩ :: ⟨name, k, Hazard.brace⟩ :: post := by
  induction lines with
  | nil => intro index inFence k h1; simp [scanFrom] at h1
  | cons l rest ih =>
    intro index inFence k h1 h2
    rw [scanFrom_step] at h1 h2 ⊢
    rw [List.mem_append] at h1 h2
    by_cases hk : k = index + 1
    · subst hk
      have hnot : ∀ hz, (⟨name, index + 1, hz⟩ : Violation) ∉
          scanFrom name rest (index + 1) (xor inFence (isFenceLine l)) [] := by
        intro hz hmem
        have := (scanFrom_range name rest _ _ _ hmem).2.1
        simp at this
      have h1h := h1.resolve_right (hnot _)
      have h2h := h2.resolve_right (hnot _)
      split at h1h
      · simp at h1h
      · rename_i hc
        rw [if_neg hc] at h2h
        rw [mem_lineReport] at h1h h2h
        have ht : tagHazard l = true := h1h.2.2
        have hb : braceHazard l = true := h2h.2.2
        refine ⟨[], scanFrom name rest (index + 1) (xor inFence (isFenceLine l)) [], ?_⟩
        rw [if_neg hc]
        simp [lineReport, ht, hb]
    · have hhead : ∀ hz, (⟨name, k, hz⟩ : Violation) ∉
          (if isFenceLine l || inFence then [] else lineReport name (index + 1) l) := by
        intro hz hmem
        split at hmem
        · simp at hmem
        · rw [mem_lineReport] at hmem
          exact hk hmem.2.1
      obtain ⟨pre, post, hpp⟩ := ih _ _ k (h1.resolve_left (hhead _)) (h2.resolve_left (hhead _))
      exact ⟨_ ++ pre, post, by rw [hpp, List.append_assoc]⟩

/-- C20: the failures of a file are bounded and ordered. Every line number lies between 1 and
the number of lines; the line numbers do not decrease along the list; a line is reported at
most once for each hazard, so at most twice; and when a line is reported for both hazards the
tag failure comes immediately before the brace failure. -/
theorem scanFile_ordered_bounded (name content : Str) :
    (∀ v ∈ scanFile name content, 1 ≤ v.line ∧ v.line ≤ (splitLines content).length) ∧
    ((scanFile name content).map Violation.line).Pairwise (· ≤ ·) ∧
    (∀ k h, (scanFile name content).countP (fun v => v.line == k && v.hazard == h) ≤ 1) ∧
    (∀ k, (scanFile name content).countP (fun v => v.line == k) ≤ 2) ∧
    (∀ k, (⟨name, k, Hazard.tag⟩ : Violation) ∈ scanFile name content →
      (⟨name, k, Hazard.brace⟩ : Violation) ∈ scanFile name content →
      ∃ pre post, scanFile name content =
        pre ++ ⟨name, k, Hazard.tag⟩ :: ⟨name, k, Hazard.brace⟩ :: post) ∧
    scanFile "x.md".toList "\x7b\nok\n<a \x7d>\n<b>".toList =
      [⟨"x.md".toList, 1, Hazard.brace⟩, ⟨"x.md".toList, 3, Hazard.tag⟩,
        ⟨"x.md".toList, 3, Hazard.brace⟩, ⟨"x.md".toList, 4, Hazard.tag⟩] := by
  refine ⟨?_, scanFrom_sorted name _ 0 false, ?_, ?_, ?_, by decide⟩
  · intro v hv
    have := scanFrom_range name (splitLines content) 0 false v hv
    omega
  · intro k h
    exact countP_scanFrom_le_one name h _ 0 false k
  · intro k
    rw [countP_line_split]
    have h1 := countP_scanFrom_le_one name Hazard.tag (splitLines content) 0 false k
    have h2 := countP_scanFrom_le_one name Hazard.brace (splitLines content) 0 false k
    simp only [scanFile, scanFileInto]
    omega
  · intro k h1 h2
    exact scanFrom_adjacent name (splitLines content) 0 false k h1 h2

/-! ## The ids of the documents of a directory tree -/

theorem mem_setAdd (ids : List Str) (id x : Str) : x ∈ setAdd ids id ↔ x ∈ ids ∨ x = id := by
  unfold setAdd
  split
  · rename_i h
    have hmem : id ∈ ids := by simpa using h
    constructor
    · exact Or.inl
    · rintro (h1 | rfl)
      · exact h1
      · exact hmem
  · simp

theorem nodup_setAdd (ids : List Str) (id : Str) (h : ids.Nodup) : (setAdd ids id).Nodup := by
  unfold setAdd
  split
  · exact h
  · rename_i hc
    have hmem : id ∉ ids := by simpa using hc
    rw [List.nodup_append]
    refine ⟨h, List.nodup_singleton _, ?_⟩
    intro a ha hb
    rw [List.mem_singleton] at hb
    subst hb
    exact hmem ha

theorem isDocIdUnder_nil (extname : Str → Str) (id current : Str) :
    ¬ IsDocIdUnder extname id current [] := by
  rintro ⟨f, hf, -⟩
  simp [filesOf] at hf

theorem isDocIdUnder_dir (extname : Str → Str) (id current name : Str)
    (entries rest : List FsEntry) :
    IsDocIdUnder extname id current (FsEntry.dir name entries :: rest) ↔
      IsDocIdUnder extname id (joinPath current name) entries ∨
        IsDocIdUnder extname id current rest := by
  unfold IsDocIdUnder
  rw [filesOf, filesOfEntry]
  simp only [List.mem_append]
  constructor
  · rintro ⟨f, hf | hf, h⟩
    · exact Or.inl ⟨f, hf, h⟩
    · exact Or.inr ⟨f, hf, h⟩
  · rintro (⟨f, hf, h⟩ | ⟨f, hf, h⟩)
    · exact ⟨f, Or.inl hf, h⟩
    · exact ⟨f, Or.inr hf, h⟩

theorem isDocIdUnder_file (extname : Str → Str) (id current name content : Str)
    (rest : List FsEntry) :
    IsDocIdUnder extname id current (FsEntry.file name content :: rest) ↔
      (DOC_EXTENSIONS.contains (extname name) = true ∧
        id = readDocId extname (joinPath current name) content) ∨
        IsDocIdUnder extname id current rest := by
  unfold IsDocIdUnder
  rw [filesOf, filesOfEntry]
  simp only [List.mem_append, List.mem_singleton]
  constructor
  · rintro ⟨f, hf | hf, h⟩
    · subst hf
      exact Or.inl h
    · exact Or.inr ⟨f, hf, h⟩
  · rintro (h | ⟨f, hf, h⟩)
    · exact ⟨_, Or.inl rfl, h⟩
    · exact ⟨f, Or.inr hf, h⟩

theorem stackDirs_cons (current : Str) (entries : List FsEntry)
    (stack : List (Str × List FsEntry)) :
    stackDirs ((current, entries) :: stack) = 1 + dirCount entries + stackDirs stack := by
  simp [stackDirs]

/-- The loop over the entries of one directory: the directories of the entries go on the
stack, and the ids of the document files among the entries join `ids`. -/
theorem processEntries_spec (extname : Str → Str) (current : Str) (entries : List FsEntry) :
    ∀ (stack : List (Str × List FsEntry)) (ids : List Str),
      stackDirs (processEntries extname current entries stack ids).1 =
          stackDirs stack + dirCount entries ∧
        (∀ id, (id ∈ (processEntries extname current entries stack ids).2 ∨
            ∃ p ∈ (processEntries extname current entries stack ids).1,
              IsDocIdUnder extname id p.1 p.2) ↔
          (id ∈ ids ∨ IsDocIdUnder extname id current entries ∨
            ∃ p ∈ stack, IsDocIdUnder extname id p.1 p.2)) ∧
        (ids.Nodup → (processEntries extname current entries stack ids).2.Nodup) := by
  induction entries with
  | nil =>
    intro stack ids
    refine ⟨by simp [processEntries, dirCount], ?_, by simp [processEntries]⟩
    intro id
    simp [processEntries, isDocIdUnder_nil]
  | cons entry rest ih =>
    intro stack ids
    cases entry with
    | dir name es =>
      obtain ⟨h1, h2, h3⟩ := ih ((joinPath current name, es) :: stack) ids
      rw [processEntries]
      refine ⟨?_, ?_, h3⟩
      · rw [h1, stackDirs_cons, dirCount, dirCountEntry]
        omega
      · intro id
        rw [h2 id, isDocIdUnder_dir]
        simp only [List.mem_cons, exists_eq_or_imp]
        tauto
    | file name content =>
      rw [processEntries]
      by_cases hext : DOC_EXTENSIONS.contains (extname name) = true
      · rw [if_pos hext]
        obtain ⟨h1, h2, h3⟩ :=
          ih stack (setAdd ids (readDocId extname (joinPath current name) content))
        refine ⟨?_, ?_, fun hn => h3 (nodup_setAdd _ _ hn)⟩
        · rw [h1, dirCount, dirCountEntry]
          omega
        · intro id
          rw [h2 id, isDocIdUnder_file, mem_setAdd]
          simp only [hext, true_and]
          tauto
      · rw [if_neg hext]
        obtain ⟨h1, h2, h3⟩ := ih stack ids
        refine ⟨?_, ?_, h3⟩
        · rw [h1, dirCount, dirCountEntry]
          omega
        · intro id
          rw [h2 id, isDocIdUnder_file]
          tauto

/-- The `while` loop ends within as many rounds as there are directories to read, and its
result holds the ids it started with and those of the document files under the directories
of the stack. -/
theorem collectLoop_spec (extname : Str → Str) :
    ∀ (n : Nat) (stack : List (Str × List FsEntry)) (ids : List Str), stackDirs stack = n →
      ∃ res, (∀ fuel, n ≤ fuel → collectLoop extname fuel stack ids = some res) ∧
        (∀ id, id ∈ res ↔ id ∈ ids ∨ ∃ p ∈ stack, IsDocIdUnder extname id p.1 p.2) ∧
        (ids.Nodup → res.Nodup) := by
  intro n
  induction n with
  | zero =>
    intro stack ids hn
    cases stack with
    | nil =>
      refine ⟨ids, ?_, by simp, id⟩
      intro fuel _
      cases fuel <;> rfl
    | cons p st =>
      obtain ⟨c, es⟩ := p
      rw [stackDirs_cons] at hn
      omega
  | succ n ih =>
    intro stack ids hn
    cases stack with
    | nil => simp [stackDirs] at hn
    | cons p st =>
      obtain ⟨c, es⟩ := p
      obtain ⟨h1, h2, h3⟩ := processEntries_spec extname c es st ids
      rw [stackDirs_cons] at hn
      obtain ⟨res, hres, hmem, hnd⟩ :=
        ih (processEntries extname c es st ids).1 (processEntries extname c es st ids).2
          (by rw [h1]; omega)
      refine ⟨res, ?_, ?_, fun hids => hnd (h3 hids)⟩
      · intro fuel hfuel
        cases fuel with
        | zero => omega
        | succ fuel =>
          rw [collectLoop]
          exact hres fuel (by omega)
      · intro id
        rw [hmem id, h2 id]
        simp only [List.mem_cons, exists_eq_or_imp]

/-- The result of `collectDocIds`, with enough rounds for the directories of the tree. -/
theorem collectDocIds_spec_aux (extname : Str → Str) (root : List FsEntry) :
    ∃ ids, (∀ fuel, dirCount root + 1 ≤ fuel → collectDocIds extname fuel root = some ids) ∧
      ids.Nodup ∧
      ∀ id, id ∈ ids ↔
        ∃ f ∈ filesOf [] root,
          (extname f.2.1 = ".md".toList ∨ extname f.2.1 = ".mdx".toList) ∧
            id = readDocId extname f.1 f.2.2 := by
  obtain ⟨res, hres, hmem, hnd⟩ :=
    collectLoop_spec extname (stackDirs [([], root)]) [([], root)] [] rfl
  refine ⟨res, ?_, hnd List.nodup_nil, ?_⟩
  · intro fuel hfuel
    exact hres fuel (by rw [stackDirs_cons]; simp [stackDirs]; omega)
  · intro id
    rw [hmem id]
    simp only [List.not_mem_nil, false_or, List.mem_singleton, exists_eq_left, IsDocIdUnder]
    constructor
    · rintro ⟨f, hf, hext, hid⟩
      refine ⟨f, hf, ?_, hid⟩
      simpa [DOC_EXTENSIONS] using hext
    · rintro ⟨f, hf, hext, hid⟩
      refine ⟨f, hf, ?_, hid⟩
      simpa [DOC_EXTENSIONS] using hext

/-- C17: for every directory tree `collectDocIds` ends, within one round for the root and one
for each directory under it, and the set it returns holds exactly the ids `readDocId(f)` of
the files `f` at any depth under the root whose extension is `.md` or `.mdx`. A file with
another extension contributes no id, and the files of every subdirectory are reached. -/
theorem collectDocIds_spec (extname : Str → Str) (root : List FsEntry) :
    (∃ ids, (∀ fuel, dirCount root + 1 ≤ fuel → collectDocIds extname fuel root = some ids) ∧
      ids.Nodup ∧
      ∀ id, id ∈ ids ↔
        ∃ f ∈ filesOf [] root,
          (extname f.2.1 = ".md".toList ∨ extname f.2.1 = ".mdx".toList) ∧
            id = readDocId extname f.1 f.2.2) ∧
    collectDocIds posixExtname 3
        [FsEntry.file "index.md".toList "# Home".toList,
          FsEntry.dir "guide".toList
            [FsEntry.file "setup.mdx".toList "---\nid: custom\n---\n".toList,
              FsEntry.file "logo.png".toList [],
              FsEntry.dir "deep".toList [FsEntry.file "a.md".toList []]],
          FsEntry.file "notes.txt".toList []] =
      some ["index".toList, "custom".toList, "guide/deep/a".toList] := by
  exact ⟨collectDocIds_spec_aux extname root, by decide⟩

/-! ## The diagnostic output -/

theorem digitChar_ne_newline : ∀ d, d < 10 → Nat.digitChar d ≠ '\n' := by
  decide

theorem toDigitsCore_no_newline (fuel : Nat) :
    ∀ (n : Nat) (acc : List Char), '\n' ∉ acc → '\n' ∉ Nat.toDigitsCore 10 fuel n acc := by
  induction fuel with
  | zero => intro n acc h; simpa [Nat.toDigitsCore] using h
  | succ fuel ih =>
    intro n acc h
    have hcons : '\n' ∉ Nat.digitChar (n % 10) :: acc := by
      simp only [List.mem_cons, not_or]
      exact ⟨fun hc => digitChar_ne_newline _ (Nat.mod_lt n (by decide)) hc.symm, h⟩
    rw [Nat.toDigitsCore]
    split
    · exact hcons
    · exact ih _ _ hcons

theorem toDecimal_no_newline (n : Nat) : '\n' ∉ toDecimal n :=
  toDigitsCore_no_newline _ _ _ (List.not_mem_nil _)

theorem message_no_newline (v : Violation) (hfile : '\n' ∉ v.file) : '\n' ∉ message v := by
  unfold message
  simp only [List.mem_append, not_or]
  refine ⟨⟨⟨hfile, by decide⟩, toDecimal_no_newline _⟩, ?_⟩
  cases v.hazard <;> decide

theorem outputLines_of_lines (texts : List Str) (h : ∀ t ∈ texts, '\n' ∉ t) :
    outputLines texts = texts := by
  induction texts with
  | nil => rfl
  | cons t rest ih =>
    unfold outputLines at ih ⊢
    rw [List.flatMap_cons, ih (fun x hx => h x (List.mem_cons_of_mem _ hx)),
      split_of_not_mem _ _ (h t (List.mem_cons_self _ _))]
    rfl

theorem allFailures_file (host : MetaHost) (failures : List Violation)
    (h : allFailures host = some failures) (v : Violation) (hv : v ∈ failures) :
    v.file ∈ host.readdir := by
  rcases scanFiles_file host (metaFiles host) [] failures h v hv with h1 | h1
  · simp at h1
  · exact (List.mem_filter.1 h1).1

/-- C15, at inputs that refute it: for a file with one failure and for a sidebar with one
missing id the summary line is the first line of the output and the diagnostic line follows
it, so the summary line is not the last line. For a missing id that contains a newline the
diagnostic of the one violation takes two lines. -/
theorem summary_line_not_last :
    (checkMdxSafety (plainDir [("c.md".toList, "<div>".toList)])).map
        (fun o => (o.exitCode, outputLines o.stderr)) =
      some (1, ["MDX safety check failed:".toList,
        "c.md:1 contains raw \x27<\x27 that looks like JSX".toList]) ∧
    (checkMdxSafety (plainDir [("c.md".toList, "<div>".toList)])).map
        (fun o => (outputLines o.stderr).getLast?) ≠
      some (some "MDX safety check failed:".toList) ∧
    outputLines (validateSidebars (some [JsValue.str "missing-page".toList]) []).stderr =
      ["Sidebar references missing doc ids:".toList, "- missing-page".toList] ∧
    (outputLines (validateSidebars (some [JsValue.str "missing-page".toList]) []).stderr).getLast? ≠
      some "Sidebar references missing doc ids:".toList ∧
    outputLines (validateSidebars (some [JsValue.str "a\nb".toList]) []).stderr =
      ["Sidebar references missing doc ids:".toList, "- a".toList, "b".toList] := by
  decide

/-- C15, amended: when a check fails on violations, its output is the summary line followed
by the diagnostics of the violations in order. The markup-safety check writes the heading, a
newline and the texts of the failures joined by newlines; the sidebar check writes the
heading and then the text `- id` of each missing id. The output is the heading and then
exactly one line for each violation when no name of the directory, for the first check, and
no missing id, for the second, contains a newline. -/
theorem diagnostics_follow_summary (host : MetaHost) (o : Outcome)
    (ds : Option (List JsValue)) (docIds : List Str) :
    (checkMdxSafety host = some o → o.exitCode = 1 →
      ∃ failures, allFailures host = some failures ∧ failures ≠ [] ∧
        o.stderr =
          ["MDX safety check failed:".toList ++ '\n' :: joinLines (failures.map message)] ∧
        ((∀ name ∈ host.readdir, '\n' ∉ name) →
          outputLines o.stderr =
            "MDX safety check failed:".toList :: failures.map message)) ∧
    ((validateSidebars ds docIds).exitCode = 1 →
      (validateSidebars ds docIds).stderr =
          "Sidebar references missing doc ids:".toList ::
            (missingIds (collectSidebarDocIds (ds.getD []) []) docIds).map
              (fun id => "- ".toList ++ id) ∧
        missingIds (collectSidebarDocIds (ds.getD []) []) docIds ≠ [] ∧
        ((∀ id ∈ missingIds (collectSidebarDocIds (ds.getD []) []) docIds, '\n' ∉ id) →
          outputLines (validateSidebars ds docIds).stderr =
            "Sidebar references missing doc ids:".toList ::
              (missingIds (collectSidebarDocIds (ds.getD []) []) docIds).map
                (fun id => "- ".toList ++ id))) := by
  constructor
  · intro hrun hfail
    obtain ⟨failures, hf, ho⟩ := checkMdxSafety_eq_some host o hrun
    refine ⟨failures, hf, ?_⟩
    by_cases h : failures = []
    · rw [if_pos h] at ho
      rw [ho] at hfail
      cases hfail
    · rw [if_neg h] at ho
      have htext : "MDX safety check failed:\n".toList ++ joinLines (failures.map message) =
          "MDX safety check failed:".toList ++ '\n' :: joinLines (failures.map message) := by
        rw [show "MDX safety check failed:\n".toList =
          "MDX safety check failed:".toList ++ ['\n'] by decide]
        simp
      have hst : o.stderr =
          ["MDX safety check failed:".toList ++ '\n' :: joinLines (failures.map message)] := by
        rw [ho, ← htext]
      refine ⟨h, hst, ?_⟩
      intro hnames
      rw [hst]
      simp only [outputLines, List.flatMap_cons, List.flatMap_nil, List.append_nil]
      rw [split_append_sep _ _ _ (by decide), split_joinLines _ (by simpa using h)]
      intro l hl
      rw [List.mem_map] at hl
      obtain ⟨v, hv, rfl⟩ := hl
      exact message_no_newline v (hnames _ (allFailures_file host failures hf v hv))
  · intro hfail
    rw [validateSidebars_eq] at hfail ⊢
    rw [collect_eq_flatMap]
    by_cases h : missingIds ((ds.getD []).flatMap contribution) docIds = []
    · rw [if_pos h] at hfail
      cases hfail
    · rw [if_neg h]
      refine ⟨rfl, h, ?_⟩
      intro hids
      apply outputLines_of_lines
      intro t ht
      rcases List.mem_cons.1 ht with rfl | ht
      · decide
      · rw [List.mem_map] at ht
        obtain ⟨id, hid, rfl⟩ := ht
        simp only [List.mem_append, not_or]
        exact ⟨by decide, hids id hid⟩

/-- The hypotheses of the amended C15 hold for a file with two failures and for a sidebar
with a missing id. -/
theorem diagnostics_follow_summary_witness :
    checkMdxSafety (plainDir [("c.md".toList, "<div \x7b".toList)]) =
        some ⟨["MDX safety check failed:\nc.md:1 contains raw \x27<\x27 that looks like JSX\nc.md:1 contains raw \x27\x7b\x27 or \x27\x7d\x27".toList],
          [], 1⟩ ∧
      (validateSidebars (some [JsValue.str "missing-page".toList]) []).exitCode = 1 ∧
      (∃ failures,
        allFailures (plainDir [("c.md".toList, "<div \x7b".toList)]) = some failures ∧
        failures ≠ [] ∧
        (⟨["MDX safety check failed:\nc.md:1 contains raw \x27<\x27 that looks like JSX\nc.md:1 contains raw \x27\x7b\x27 or \x27\x7d\x27".toList],
          [], 1⟩ : Outcome).stderr =
          ["MDX safety check failed:".toList ++ '\n' :: joinLines (failures.map message)] ∧
        ((∀ name ∈ (plainDir [("c.md".toList, "<div \x7b".toList)]).readdir, '\n' ∉ name) →
          outputLines (⟨["MDX safety check failed:\nc.md:1 contains raw \x27<\x27 that looks like JSX\nc.md:1 contains raw \x27\x7b\x27 or \x27\x7d\x27".toList],
            [], 1⟩ : Outcome).stderr =
            "MDX safety check failed:".toList :: failures.map message)) ∧
      outputLines (validateSidebars (some [JsValue.str "missing-page".toList]) []).stderr =
        "Sidebar references missing doc ids:".toList ::
          (missingIds (collectSidebarDocIds
            ((some [JsValue.str "missing-page".toList]).getD []) []) []).map
            (fun id => "- ".toList ++ id) :=
  ⟨by decide, by decide,
    (diagnostics_follow_summary (plainDir [("c.md".toList, "<div \x7b".toList)])
      ⟨["MDX safety check failed:\nc.md:1 contains raw \x27<\x27 that looks like JSX\nc.md:1 contains raw \x27\x7b\x27 or \x27\x7d\x27".toList],
        [], 1⟩
      (some [JsValue.str "missing-page".toList]) []).1 (by decide) (by decide),
    ((diagnostics_follow_summary (plainDir [("c.md".toList, "<div \x7b".toList)])
      ⟨[], [], 0⟩
      (some [JsValue.str "missing-page".toList]) []).2 (by decide)).2.2 (by decide)⟩

/-! ## The missing ids and the set of documents -/

theorem missingIds_sublist (ids docs docs2 : List Str) (hsub : ∀ id ∈ docs, id ∈ docs2) :
    (missingIds ids docs2).Sublist (missingIds ids docs) := by
  unfold missingIds
  apply List.monotone_filter_right
  intro id h
  have h1 : id ∉ docs2 := by simpa using h
  have h2 : id ∉ docs := fun hc => h1 (hsub id hc)
  simpa using h2

theorem validateSidebars_pass_mono (ds : Option (List JsValue)) (docs docs2 : List Str)
    (hsub : ∀ id ∈ docs, id ∈ docs2) (hpass : (validateSidebars ds docs).exitCode = 0) :
    (validateSidebars ds docs2).exitCode = 0 := by
  rw [validateSidebars_exitCode] at hpass ⊢
  by_cases h : missingIds ((ds.getD []).flatMap contribution) docs = []
  · have h2 : missingIds ((ds.getD []).flatMap contribution) docs2 = [] := by
      have := missingIds_sublist ((ds.getD []).flatMap contribution) docs docs2 hsub
      rw [h] at this
      exact List.sublist_nil.1 this
    rw [if_pos h2]
  · rw [if_neg h] at hpass
    cases hpass

theorem filesOf_append (current : Str) (entries more : List FsEntry) :
    filesOf current (entries ++ more) = filesOf current entries ++ filesOf current more := by
  induction entries with
  | nil => simp [filesOf]
  | cons entry rest ih => rw [List.cons_append, filesOf, filesOf, ih, List.append_assoc]

/-- C19: the missing ids shrink when the set of document ids grows. For sets `docs` included
in `docs2` the missing list against `docs2` is a sublist of the missing list against `docs`,
so a check that passes against `docs` passes against `docs2`; this holds when an id is added
to the set, also one that is already in it, and when an entry is added to the root of the
directory tree from which `collectDocIds` collects the set. -/
theorem missing_antitone (ds : Option (List JsValue)) (docs docs2 : List Str)
    (hsub : ∀ id ∈ docs, id ∈ docs2) :
    (missingIds (collectSidebarDocIds (ds.getD []) []) docs2).Sublist
      (missingIds (collectSidebarDocIds (ds.getD []) []) docs) ∧
    ((validateSidebars ds docs).exitCode = 0 → (validateSidebars ds docs2).exitCode = 0) ∧
    (∀ id, (validateSidebars ds docs).exitCode = 0 →
      (validateSidebars ds (setAdd docs id)).exitCode = 0) ∧
    (∀ (extname : Str → Str) (root : List FsEntry) (entry : FsEntry) (ids ids2 : List Str),
      collectDocIds extname (dirCount root + 1) root = some ids →
      collectDocIds extname (dirCount (root ++ [entry]) + 1) (root ++ [entry]) = some ids2 →
      (validateSidebars ds ids).exitCode = 0 → (validateSidebars ds ids2).exitCode = 0) := by
  refine ⟨missingIds_sublist _ docs docs2 hsub, validateSidebars_pass_mono ds docs docs2 hsub,
    ?_, ?_⟩
  · intro id
    exact validateSidebars_pass_mono ds docs (setAdd docs id)
      (fun x hx => (mem_setAdd docs id x).2 (Or.inl hx))
  · intro extname root entry ids ids2 h1 h2
    apply validateSidebars_pass_mono ds ids ids2
    obtain ⟨r1, hr1, -, hm1⟩ := collectDocIds_spec_aux extname root
    obtain ⟨r2, hr2, -, hm2⟩ := collectDocIds_spec_aux extname (root ++ [entry])
    have e1 := hr1 _ (Nat.le_refl _)
    have e2 := hr2 _ (Nat.le_refl _)
    rw [h1] at e1
    rw [h2] at e2
    cases e1
    cases e2
    intro id hid
    rw [hm2]
    obtain ⟨f, hf, hrest⟩ := (hm1 id).1 hid
    exact ⟨f, by rw [filesOf_append]; exact List.mem_append_left _ hf, hrest⟩

/-- The hypothesis of C19 holds when a document is added to a set against which the check
passes. -/
theorem missing_antitone_witness :
    (∀ id ∈ ["index".toList], id ∈ ["index".toList, "glossary".toList]) ∧
      (missingIds (collectSidebarDocIds [JsValue.str "index".toList, JsValue.str "faq".toList] [])
          ["index".toList, "glossary".toList]).Sublist
        (missingIds (collectSidebarDocIds [JsValue.str "index".toList, JsValue.str "faq".toList] [])
          ["index".toList]) :=
  ⟨by decide,
    (missing_antitone (some [JsValue.str "index".toList, JsValue.str "faq".toList])
      ["index".toList] ["index".toList, "glossary".toList] (by decide)).1⟩

/-! ## The value of the `id:` line -/

theorem split_ne_nil (sep : Char) (w : Str) : split sep w ≠ [] := by
  cases w with
  | nil => simp [split]
  | cons c t =>
    rw [split]
    split
    · simp
    · split <;> simp

theorem split_first (sep : Char) (w : Str) :
    (split sep w)[0]? = some (w.takeWhile (fun c => c != sep)) := by
  induction w with
  | nil => simp [split]
  | cons c t ih =>
    rw [split]
    by_cases hc : c = sep
    · simp [hc]
    · rw [if_neg hc]
      have hne := split_ne_nil sep t
      cases hs : split sep t with
      | nil => exact absurd hs hne
      | cons l ls =>
        rw [hs] at ih
        simp only [List.getElem?_cons_zero, Option.some.injEq] at ih
        have hb : (c != sep) = true := by simpa using hc
        simp [List.takeWhile, hb, ih]

theorem split_second (sep : Char) (w : Str) (hmem : sep ∈ w) :
    (split sep w)[1]? =
      some (((w.dropWhile (fun c => c != sep)).drop 1).takeWhile (fun c => c != sep)) := by
  induction w with
  | nil => simp at hmem
  | cons c t ih =>
    rw [split]
    by_cases hc : c = sep
    · rw [if_pos hc]
      simp only [List.getElem?_cons_succ]
      rw [split_first]
      simp [List.dropWhile, hc]
    · rw [if_neg hc]
      have ht : sep ∈ t := by
        rcases List.mem_cons.1 hmem with h | h
        · exact absurd h.symm hc
        · exact h
      have hne := split_ne_nil sep t
      cases hs : split sep t with
      | nil => exact absurd hs hne
      | cons l ls =>
        have ih2 := ih ht
        rw [hs] at ih2
        simp only [List.getElem?_cons_succ] at ih2 ⊢
        rw [ih2]
        have hb : (c != sep) = true := by simpa using hc
        simp [List.dropWhile, hb]

theorem mem_of_startsWith (s p : Str) (h : startsWith s p = true) : ∀ x ∈ p, x ∈ s := by
  induction p generalizing s with
  | nil => intro x hx; simp at hx
  | cons a p ih =>
    cases s with
    | nil => simp [startsWith, List.isPrefixOf] at h
    | cons b s =>
      simp only [startsWith, List.isPrefixOf, Bool.and_eq_true, beq_iff_eq] at h
      intro x hx
      rcases List.mem_cons.1 hx with rfl | hx
      · rw [h.1]
        exact List.mem_cons_self _ _
      · exact List.mem_cons_of_mem _ (ih s h.2 x hx)

theorem mem_of_mem_trim (s : Str) (x : Char) (h : x ∈ trim s) : x ∈ s := by
  unfold trim trimEnd trimStart at h
  rw [List.mem_reverse] at h
  have h2 := (List.dropWhile_sublist isJsWhiteSpace).subset h
  rw [List.mem_reverse] at h2
  exact (List.dropWhile_sublist isJsWhiteSpace).subset h2

theorem colon_mem_of_isIdLine (line : Str) (h : isIdLine line = true) : ':' ∈ line :=
  mem_of_mem_trim line ':' (mem_of_startsWith _ _ h ':' (by decide))

/-- C18: when the front matter is closed by a delimiter and `line` is the first of its lines
whose trimmed form starts with `id:`, the result of `readDocId` depends on the segment of
`line` between its first and its second colon only, or up to the end of `line` when it has no
second colon. For the empty segment the result is the default id; otherwise it is the
segment trimmed, without a leading quote and without a trailing quote. So the value `a:b`
gives `a`, a value of spaces gives the empty id, and `id:` without a value falls back to
the default id. -/
theorem readDocId_segment (extname : Str → Str) (relative content : Str) (e : Nat)
    (before after : List Str) (line : Str)
    (hstart : startsWith content "---".toList = true)
    (hclose : closesAt content e)
    (hlines : split '\n' (slice content 3 e) = before ++ line :: after)
    (hfirst : ∀ l ∈ before, startsWith (trim l) "id:".toList = false)
    (hid : startsWith (trim line) "id:".toList = true) :
    readDocId extname relative content =
      (if colonSegment line = [] then defaultId extname relative
        else stripQuotes (trim (colonSegment line))) ∧
    readDocId posixExtname "x.md".toList "---\nid: a:b\n---\n".toList = "a".toList ∧
    readDocId posixExtname "x.md".toList "---\nid:   \n---\n".toList = [] ∧
    readDocId posixExtname "x.md".toList "---\nid:\n---\n".toList = "x".toList ∧
    stripQuotes "\"a\"".toList = "a".toList ∧
    stripQuotes "\x27a".toList = "a".toList ∧
    stripQuotes "a\"".toList = "a".toList ∧
    stripQuotes "\"\x27a\x27\"".toList = "\x27a\x27".toList := by
  refine ⟨?_, by decide, by decide, by decide, by decide, by decide, by decide, by decide⟩
  have hcolon := colon_mem_of_isIdLine line hid
  have hne : line ≠ [] := List.ne_nil_of_mem hcolon
  unfold readDocId
  rw [if_pos hstart, indexOf_of_closesAt content e hclose]
  simp only []
  rw [hlines, find_isIdLine_append before after line hfirst hid]
  simp only []
  rw [if_pos hne, split_second ':' line hcolon]
  simp only []
  by_cases hseg : colonSegment line = []
  · rw [if_pos hseg]
    unfold colonSegment at hseg
    rw [if_neg (by simpa using hseg)]
  · rw [if_neg hseg]
    unfold colonSegment at hseg ⊢
    rw [if_pos hseg]

/-- The hypotheses of C18 hold for a front matter with a title line before the line
`id: a:b`, where the segment between the colons is ` a`. -/
theorem readDocId_segment_witness :
    closesAt "---\ntitle: T\nid: a:b\n---\n".toList 20 ∧
      split '\n' (slice "---\ntitle: T\nid: a:b\n---\n".toList 3 (20 : Nat)) =
        [[], "title: T".toList] ++ "id: a:b".toList :: [] ∧
      colonSegment "id: a:b".toList = " a".toList ∧
      readDocId posixExtname "x.md".toList "---\ntitle: T\nid: a:b\n---\n".toList =
        (if colonSegment "id: a:b".toList = [] then defaultId posixExtname "x.md".toList
          else stripQuotes (trim (colonSegment "id: a:b".toList))) :=
  ⟨by decide, by decide, by decide,
    (readDocId_segment posixExtname "x.md".toList "---\ntitle: T\nid: a:b\n---\n".toList 20
      [[], "title: T".toList] [] "id: a:b".toList
      (by decide) (by decide) (by decide) (by decide) (by decide)).1⟩

end Smolotchi
